import Mathlib

/-!
Verification of the OwnNews ranking engine (`src/engine.py`) against its
specification. The engine's operations are shallowly embedded: database
tables and stored procedures (`match_articles`, `random_articles`, ILIKE
category fetches) appear as explicit function-valued state, Python floats
become exact rationals or reals, and Python `int()` truncation is modelled
explicitly. Each section names the Python function it translates.
-/

/-! ## Ranked feed: `RankingEngine.rank` (engine.py lines 206-242)

A ranked article row as the stored procedures return it: only the fields
`rank`'s control flow reads or writes are modelled (`id` for dedup, the
`similarity` score which the random-fill loop overwrites with 0).  The
final reason-annotation loop of `rank` only adds a `reason` key to every
row and changes neither ids, similarities, nor order, so it is not
modelled as a field. -/
structure RArt where
  id : ℕ
  similarity : ℚ
deriving DecidableEq, Repr

/-- Python `int(x)` on a rational: truncation toward zero. -/
def pyInt (x : ℚ) : ℤ := if 0 ≤ x then ⌊x⌋ else -⌊-x⌋

/-- Python truthiness of `get_user_vector()`'s result: `None` and the empty
list are both falsy (`if not user_vec:`). -/
def pyFalsy : Option (List ℚ) → Bool
  | none => true
  | some [] => true
  | some (_ :: _) => false

/-- The per-user database state `rank` reads: the stored user vector
(`get_user_vector`), the vector `_init_user_vector` would compute ([] when
the store has no embeddings), the `_get_latest` fallback, and the two
stored procedures `match_articles` and `random_articles`, each as a
function from the requested count to the returned rows. -/
structure RankDB where
  userVec : Option (List ℚ)
  initVec : List ℚ
  latest : ℕ → List RArt
  matchArticles : ℕ → List RArt
  randomArticles : ℕ → List RArt

/-- `similar_count = max(1, int(top_n * filter_strength))` (line 215). -/
def simCount (top_n : ℕ) (filter_strength : ℚ) : ℤ :=
  max 1 (pyInt ((top_n : ℚ) * filter_strength))

/-- `random_count = top_n - similar_count` (line 216). -/
def randCount (top_n : ℕ) (filter_strength : ℚ) : ℤ :=
  (top_n : ℤ) - simCount top_n filter_strength

/-- The append loop shared by `rank` (lines 230-233) and
`get_onboarding_articles` (lines 162-164): walk the candidate pool, and
append `zero r` to the accumulator whenever `r`'s id is not in the
pre-computed `existing` id set and the accumulator is still shorter than
`cap`.  (`zero` is the per-row rewrite the loop performs before appending:
`rank` sets `similarity = 0`, onboarding appends the row unchanged.) -/
def appendFresh {α : Type} (zero : α → α) (getId : α → ℕ) (cap : ℕ) (existing : List ℕ) :
    List α → List α → List α
  | acc, [] => acc
  | acc, r :: rest =>
    if getId r ∉ existing ∧ acc.length < cap then
      appendFresh zero getId cap existing (acc ++ [zero r]) rest
    else
      appendFresh zero getId cap existing acc rest

/-- `RankingEngine.rank(filter_strength, top_n)` (lines 206-242). -/
def rank (db : RankDB) (filter_strength : ℚ) (top_n : ℕ) : List RArt :=
  let user_vec := if pyFalsy db.userVec then db.initVec else db.userVec.getD []
  if user_vec.isEmpty then
    (db.latest top_n).map (fun r => { r with similarity := 0 })
  else
    let results := db.matchArticles (simCount top_n filter_strength).toNat
    if 0 < randCount top_n filter_strength then
      appendFresh (fun r => { r with similarity := 0 }) RArt.id top_n
        (results.map RArt.id) results
        (db.randomArticles (randCount top_n filter_strength + 10).toNat)
    else results

/-- `RankingEngine.__init__` (lines 56-60): a falsy (empty) `user_id`
raises `ValueError("user_id (email) is required")`; otherwise the engine
is constructed. -/
def initEngine (user_id : String) : Except String String :=
  if user_id = "" then Except.error "user_id (email) is required" else Except.ok user_id

/-! ## Onboarding sample articles: `get_onboarding_articles` (lines 141-165) -/

/-- An onboarding article row; only its id matters to the control flow. -/
structure OArt where
  id : ℕ
deriving DecidableEq, Repr

/-- Database state for `get_onboarding_articles`: the ILIKE category fetch
`(category pattern, limit) -> rows with non-null embedding` and the
`random_articles` procedure. -/
structure OnboardDB where
  byCategory : String → ℕ → List OArt
  randomArticles : ℕ → List OArt

/-- `per_cat = max(3, count // max(1, len(categories)))` (line 146):
Python floor division. -/
def perCat (count : ℕ) (categories : List String) : ℕ :=
  max 3 (count / max 1 categories.length)

/-- The per-category cap as the spec words it (`max(3, ceil(count/|cats|))`,
spec section 4.2); declared only to be compared with `perCat`. -/
def perCatSpec (count : ℕ) (categories : List String) : ℕ :=
  max 3 (⌈(count : ℚ) / (categories.length : ℚ)⌉.toNat)

/-- `RankingEngine.get_onboarding_articles(categories, count)`
(lines 141-165). -/
def get_onboarding_articles (db : OnboardDB) (categories : List String) (count : ℕ) :
    List OArt :=
  let results := categories.flatMap fun c => db.byCategory c (perCat count categories)
  let padded :=
    if results.length < count then
      appendFresh id OArt.id count (results.map OArt.id) results
        (db.randomArticles (count - results.length + 5))
    else results
  padded.take count

/-! ## Concrete database states used by witnesses and counterexamples -/

/-- A store with a present user vector, `match_articles` returning `k`
distinct rows of similarity 9/10, and `random_articles` returning `k`
distinct rows whose ids (from 100 up) never collide with the match ids. -/
def exDB : RankDB where
  userVec := some [1]
  initVec := []
  latest := fun _ => []
  matchArticles := fun k => (List.range k).map fun i => ⟨i, 9/10⟩
  randomArticles := fun k => (List.range k).map fun i => ⟨100 + i, 0⟩

/-- Three onboarding categories with four articles each (ids 10-13, 20-23,
30-33), plus a disjoint random pool (ids from 900 up). -/
def exODB : OnboardDB where
  byCategory := fun c k =>
    (List.range k).map fun i =>
      ⟨(if c = "a" then 10 else if c = "b" then 20 else 30) + i⟩
  randomArticles := fun k => (List.range k).map fun i => ⟨900 + i⟩

/-! ## Diversity score: `get_info_health` (engine.py lines 441-454) and
`_calc_health` (lines 557-574), which compute the same score -/

/-- Python `int(x)` on a real: truncation toward zero. -/
noncomputable def pyIntR (x : ℝ) : ℤ := if 0 ≤ x then ⌊x⌋ else -⌊-x⌋

/-- `Counter(items).values()`: the count of each distinct label, listed in
first-occurrence order of the labels. -/
def labelCounts (items : List String) : List ℕ :=
  items.dedup.map fun l => items.count l

/-- `entropy = -sum((c / total) * math.log2(c / total) for c in
counter.values())` (lines 449-452 and 566). -/
noncomputable def shannonEntropy (counts : List ℕ) (total : ℝ) : ℝ :=
  -((counts.map fun (c : ℕ) => ((c : ℝ) / total) * Real.logb 2 ((c : ℝ) / total)).sum)

/-- The diversity score both `get_info_health` and `_calc_health` compute:
`0` when there is at most one distinct label (this also covers the
empty-input early returns), else `int((entropy / max_entropy) * 100)` with
`max_entropy = log2(n_categories)`. -/
noncomputable def diversityScore (items : List String) : ℤ :=
  let counter := labelCounts items
  let n := counter.length
  if n ≤ 1 then 0
  else pyIntR (shannonEntropy counter ((counter.sum : ℕ) : ℝ) / Real.logb 2 (n : ℝ) * 100)

/-! ## Feedback updates: `_apply_feedback` (engine.py lines 695-717)

numpy float arrays become points of real Euclidean space of the
deployment's embedding dimension `d`; `np.linalg.norm` is the Euclidean
norm. -/

/-- A user or article vector. -/
abbrev EVec (d : ℕ) := EuclideanSpace ℝ (Fin d)

open Classical in
/-- `_apply_feedback` after the embedding fetch: `u` is the stored user
vector (`None` when absent, line 700), `v` the target article's embedding
(`None` when the row's embedding is null, in which case the function
returns with no change, lines 696-698). -/
noncomputable def applyFeedback {d : ℕ} (u : Option (EVec d)) (v : Option (EVec d))
    (alpha : ℝ) : Option (EVec d) :=
  match v with
  | none => u
  | some v =>
    match u with
    | none => if 0 < alpha then some v else none
    | some u =>
      if 0 ≤ alpha then some ((1 - alpha) • u + alpha • v)
      else
        let strength := |alpha|
        let w := (1 + strength) • u - strength • v
        if 0 < ‖w‖ then some ((‖u‖ / ‖w‖) • w) else some w

/-- `record_view` (line 683-685): vector effect of `_apply_feedback` with
`alpha = 0.03`. -/
noncomputable def recordViewVec {d : ℕ} (u v : Option (EVec d)) : Option (EVec d) :=
  applyFeedback u v 0.03

/-- `record_deep_dive` (line 687-689): `alpha = 0.15`. -/
noncomputable def recordDeepDiveVec {d : ℕ} (u v : Option (EVec d)) : Option (EVec d) :=
  applyFeedback u v 0.15

/-- `record_not_interested` (line 691-693): `alpha = -0.2`. -/
noncomputable def recordNotInterestedVec {d : ℕ} (u v : Option (EVec d)) : Option (EVec d) :=
  applyFeedback u v (-0.2)

/-- The three feedback kinds. -/
inductive FKind : Type
  | view
  | deepDive
  | notInterested

/-- The feedback rate each kind applies (lines 683-693). -/
noncomputable def alphaOf : FKind → ℝ
  | .view => 0.03
  | .deepDive => 0.15
  | .notInterested => -0.2

/-- One feedback call: the kind and the target article's embedding
(`none` for an article without a stored embedding). -/
noncomputable def feedbackStep {d : ℕ} (st : Option (EVec d))
    (ev : FKind × Option (EVec d)) : Option (EVec d) :=
  applyFeedback st ev.2 (alphaOf ev.1)

/-- A whole sequence of feedback calls applied to an initial user-vector
state. -/
noncomputable def runFeedback {d : ℕ} (u0 : Option (EVec d))
    (evs : List (FKind × Option (EVec d))) : Option (EVec d) :=
  evs.foldl feedbackStep u0

/-- The Euclidean norm of a possibly-absent vector (0 when absent). -/
noncomputable def vnorm {d : ℕ} : Option (EVec d) → ℝ
  | none => 0
  | some u => ‖u‖

/-- The largest embedding norm appearing in a sequence of events. -/
noncomputable def maxEmbNorm {d : ℕ} (evs : List (FKind × Option (EVec d))) : ℝ :=
  (evs.map fun ev => vnorm ev.2).foldr max 0

/-! ## Onboarding completion: `complete_onboarding` (engine.py lines 95-139) -/

/-- The per-user profile state `complete_onboarding` touches: the
`onboarded` flag of `user_profile` and the `user_vectors` row. -/
structure ProfileState (d : ℕ) where
  onboarded : Bool
  userVec : Option (EVec d)

open Classical in
/-- The seed vector computed from the liked embeddings `pos` (nonempty)
and the disliked embeddings `neg` (lines 127-134): the mean of `pos`,
shifted by `-0.3` times the mean of `neg` when `neg` is nonempty, then
rescaled back to the norm of the positive mean when the shifted vector is
nonzero. -/
noncomputable def onboardingVector {d : ℕ} (pos neg : List (EVec d)) : EVec d :=
  let avg := ((pos.length : ℝ))⁻¹ • pos.sum
  if neg = [] then avg
  else
    let navg := ((neg.length : ℝ))⁻¹ • neg.sum
    let adj := avg - (0.3 : ℝ) • navg
    if 0 < ‖adj‖ then (‖avg‖ / ‖adj‖) • adj else adj

open Classical in
/-- `complete_onboarding(liked_ids, disliked_ids)`: `emb` is the
articles-table embedding lookup (`none` for a missing row or a null
embedding, matching the `.not_.is_("embedding", "null")` filter). A user
vector is computed and saved only when `liked_ids` is nonempty and at
least one liked article has an embedding; the `onboarded` flag is set
unconditionally (lines 137-139). -/
noncomputable def complete_onboarding {d : ℕ} (emb : ℕ → Option (EVec d))
    (st : ProfileState d) (liked disliked : List ℕ) : ProfileState d :=
  let newVec :=
    if liked = [] then st.userVec
    else
      let pos := liked.filterMap emb
      if pos = [] then st.userVec
      else some (onboardingVector pos (disliked.filterMap emb))
  { onboarded := true, userVec := newVec }

/-! ## Near-duplicate grouping: `group_similar_articles` (lines 721-783) -/

/-- An article as the grouping pass sees it; only the id drives the
control flow (embeddings are fetched by id into a separate dict). -/
structure GArt where
  id : ℕ
deriving DecidableEq, Repr

/-- A group: the representative article's record with its added `related`
list. -/
structure SimGroup where
  art : GArt
  related : List GArt
deriving DecidableEq, Repr

/-- `sim = float(np.dot(emb_i, emb_j) / (norm_i * norm_j))` (line 776). -/
noncomputable def cosSim {d : ℕ} (x y : EVec d) : ℝ :=
  (inner x y : ℝ) / (‖x‖ * ‖y‖)

open Classical in
/-- The inner absorption loop (lines 766-779): for a representative with
embedding `eI` of nonzero norm, walk all articles; skip used ids, missing
embeddings and zero-norm embeddings; absorb an article whenever its
cosine similarity with the representative reaches the threshold, marking
it used. Returns the `related` list and the grown used set. -/
noncomputable def relatedPass {d : ℕ} (threshold : ℝ) (emb : ℕ → Option (EVec d))
    (eI : EVec d) : List GArt → List ℕ → List GArt × List ℕ
  | [], used => ([], used)
  | a :: rest, used =>
    if a.id ∈ used then relatedPass threshold emb eI rest used
    else
      match emb a.id with
      | none => relatedPass threshold emb eI rest used
      | some eJ =>
        if ‖eJ‖ = 0 then relatedPass threshold emb eI rest used
        else if threshold ≤ cosSim eI eJ then
          let p := relatedPass threshold emb eI rest (a.id :: used)
          (a :: p.1, p.2)
        else relatedPass threshold emb eI rest used

open Classical in
/-- The outer loop (lines 748-781): each unused article in input order
becomes a representative; an article without a stored embedding, or with a
zero-norm embedding, forms a singleton group; otherwise the absorption
pass runs over the full input list. -/
noncomputable def groupGo {d : ℕ} (threshold : ℝ) (emb : ℕ → Option (EVec d))
    (allArts : List GArt) : List GArt → List ℕ → List SimGroup
  | [], _ => []
  | a :: rest, used =>
    if a.id ∈ used then groupGo threshold emb allArts rest used
    else
      match emb a.id with
      | none => ⟨a, []⟩ :: groupGo threshold emb allArts rest (a.id :: used)
      | some eI =>
        if ‖eI‖ = 0 then ⟨a, []⟩ :: groupGo threshold emb allArts rest (a.id :: used)
        else
          let p := relatedPass threshold emb eI allArts (a.id :: used)
          ⟨a, p.1⟩ :: groupGo threshold emb allArts rest p.2

/-- `group_similar_articles(articles, threshold)` (lines 721-783): `emb`
plays the embeddings dict built by the articles-table fetch restricted to
the input ids with non-null embeddings. -/
noncomputable def group_similar_articles {d : ℕ} (emb : ℕ → Option (EVec d))
    (articles : List GArt) (threshold : ℝ) : List SimGroup :=
  if articles.isEmpty then [] else groupGo threshold emb articles articles []

/-- A 3-dimensional vector literal, used by the grouping scenario. -/
noncomputable def mk3 (a b c : ℝ) : EVec 3 :=
  (WithLp.equiv 2 (Fin 3 → ℝ)).symm (fun i => if i = 0 then a else if i = 1 then b else c)

/-- Unit vectors realizing the grouping scenario's threshold pattern:
cos(e1,e2) = 24/25 ≥ τ, cos(e1,e3) = 4/5 < τ, cos(e2,e3) = 117/125 ≥ τ,
cos(e4,e5) = 1 ≥ τ, all cross-block cosines 0 (τ = 0.85). -/
noncomputable def eW1 : EVec 3 := mk3 (3/5) (4/5) 0

/-- Second scenario vector. -/
noncomputable def eW2 : EVec 3 := mk3 (4/5) (3/5) 0

/-- Third scenario vector. -/
noncomputable def eW3 : EVec 3 := mk3 (24/25) (7/25) 0

/-- Fourth scenario vector. -/
noncomputable def eW4 : EVec 3 := mk3 0 0 1

/-- Fifth scenario vector. -/
noncomputable def eW5 : EVec 3 := mk3 0 0 1

/-- The embedding table of the grouping scenario. -/
noncomputable def embW : ℕ → Option (EVec 3) := fun i =>
  if i = 1 then some eW1 else if i = 2 then some eW2 else if i = 3 then some eW3
    else if i = 4 then some eW4 else if i = 5 then some eW5 else none

/-! ## Lemmas about the shared append loop -/

theorem appendFresh_of_full {α : Type} (zero : α → α) (getId : α → ℕ) (cap : ℕ)
    (existing : List ℕ) (pool : List α) :
    ∀ acc : List α, cap ≤ acc.length →
      appendFresh zero getId cap existing acc pool = acc := by
  induction pool with
  | nil => intro acc _; rfl
  | cons r rest ih =>
    intro acc hacc
    rw [appendFresh, if_neg]
    · exact ih acc hacc
    · rintro ⟨-, hlt⟩
      omega

theorem appendFresh_of_enough {α : Type} (zero : α → α) (getId : α → ℕ) (cap : ℕ)
    (existing : List ℕ) (pool : List α) :
    ∀ acc : List α,
      cap - acc.length ≤ (pool.filter fun r => getId r ∉ existing).length →
      appendFresh zero getId cap existing acc pool =
        acc ++ ((pool.filter fun r => getId r ∉ existing).take (cap - acc.length)).map zero := by
  induction pool with
  | nil =>
    intro acc h
    simp only [List.filter_nil, List.length_nil, Nat.le_zero] at h
    simp [appendFresh, h]
  | cons r rest ih =>
    intro acc h
    by_cases hfresh : getId r ∉ existing
    · have hfilter : (r :: rest).filter (fun r => decide (getId r ∉ existing))
          = r :: rest.filter fun r => decide (getId r ∉ existing) := by
        simp [List.filter_cons, hfresh]
      by_cases hlt : acc.length < cap
      · have hcap : cap - acc.length = (cap - (acc ++ [zero r]).length) + 1 := by
          simp only [List.length_append, List.length_cons, List.length_nil]
          omega
        rw [appendFresh, if_pos ⟨hfresh, hlt⟩, hfilter]
        rw [ih (acc ++ [zero r]) ?later]
        · rw [hcap, List.take_succ_cons, List.map_cons]
          simp
        case later =>
          rw [hfilter] at h
          simp only [List.length_cons] at h
          simp only [List.length_append, List.length_cons, List.length_nil]
          omega
      · have hcap : cap - acc.length = 0 := by omega
        rw [appendFresh, if_neg (by rintro ⟨-, h'⟩; exact hlt h'), hcap]
        simp [appendFresh_of_full zero getId cap existing rest acc (by omega)]
    · have hfilter : (r :: rest).filter (fun r => decide (getId r ∉ existing))
          = rest.filter fun r => decide (getId r ∉ existing) := by
        simp [List.filter_cons, hfresh]
      rw [appendFresh, if_neg (by rintro ⟨h', -⟩; exact hfresh h'), hfilter]
      rw [hfilter] at h
      exact ih acc h

theorem appendFresh_split {α : Type} (zero : α → α) (getId : α → ℕ) (cap : ℕ)
    (existing : List ℕ) (pool : List α) :
    ∀ acc : List α, ∃ news : List α,
      appendFresh zero getId cap existing acc pool = acc ++ news ∧
      news.Sublist ((pool.filter fun r => getId r ∉ existing).map zero) ∧
      (appendFresh zero getId cap existing acc pool).length ≤ max acc.length cap := by
  induction pool with
  | nil =>
    intro acc
    exact ⟨[], by simp [appendFresh], by simp [appendFresh], by simp [appendFresh]⟩
  | cons r rest ih =>
    intro acc
    by_cases hcond : getId r ∉ existing ∧ acc.length < cap
    · obtain ⟨news, h1, h2, h3⟩ := ih (acc ++ [zero r])
      rw [appendFresh, if_pos hcond]
      refine ⟨zero r :: news, ?_, ?_, ?_⟩
      · rw [h1]; simp
      · have : (r :: rest).filter (fun r => decide (getId r ∉ existing))
            = r :: rest.filter fun r => decide (getId r ∉ existing) := by
          simp [List.filter_cons, hcond.1]
        rw [this, List.map_cons]
        exact h2.cons₂ (zero r)
      · refine h3.trans ?_
        simp only [List.length_append, List.length_cons, List.length_nil]
        omega
    · obtain ⟨news, h1, h2, h3⟩ := ih acc
      rw [appendFresh, if_neg hcond]
      refine ⟨news, h1, ?_, h3⟩
      by_cases hfresh : getId r ∉ existing
      · have : (r :: rest).filter (fun r => decide (getId r ∉ existing))
            = r :: rest.filter fun r => decide (getId r ∉ existing) := by
          simp [List.filter_cons, hfresh]
        rw [this, List.map_cons]
        exact h2.trans (List.sublist_cons_self _ _)
      · have : (r :: rest).filter (fun r => decide (getId r ∉ existing))
            = rest.filter fun r => decide (getId r ∉ existing) := by
          simp [List.filter_cons, hfresh]
        rw [this]
        exact h2

/-! ## Claim theorems for `rank` -/

theorem rank_unfold (db : RankDB) (F : ℚ) (N : ℕ) (huv : pyFalsy db.userVec = false) :
    rank db F N =
      if 0 < randCount N F then
        appendFresh (fun r => { r with similarity := 0 }) RArt.id N
          ((db.matchArticles (simCount N F).toNat).map RArt.id)
          (db.matchArticles (simCount N F).toNat)
          (db.randomArticles (randCount N F + 10).toNat)
      else db.matchArticles (simCount N F).toNat := by
  obtain ⟨l, hl⟩ : ∃ l, db.userVec = some l := by
    cases h : db.userVec with
    | none => rw [h] at huv; simp [pyFalsy] at huv
    | some l => exact ⟨l, rfl⟩
  cases l with
  | nil => rw [hl] at huv; simp [pyFalsy] at huv
  | cons a t => rw [rank, hl]; simp [pyFalsy]

/-- C1: for `F ∈ [0,1]` and `N ≥ 1`, with a present user vector and a
store holding enough articles, `rank` requests exactly
`K_sim = max(1, ⌊N·F⌋)` rows from `match_articles` and returns them
followed by exactly `K_rand = N − K_sim` random fills, so the result has
length `N`; for `F = 1` the result is the similarity rows alone (no random
items), and for `F = 0` exactly `K_sim = 1` similarity row is requested
and `K_rand = N − 1` random rows are appended. -/
theorem rank_blend_counts (db : RankDB) (F : ℚ) (N : ℕ)
    (hF0 : 0 ≤ F) (hF1 : F ≤ 1) (hN : 1 ≤ N)
    (huv : pyFalsy db.userVec = false)
    (hsim : (db.matchArticles (simCount N F).toNat).length = (simCount N F).toNat)
    (hrand : (randCount N F).toNat ≤
      ((db.randomArticles (randCount N F + 10).toNat).filter
        (fun r => r.id ∉ (db.matchArticles (simCount N F).toNat).map RArt.id)).length) :
    simCount N F = max 1 ⌊(N : ℚ) * F⌋ ∧
    rank db F N =
      db.matchArticles (simCount N F).toNat ++
        (((db.randomArticles (randCount N F + 10).toNat).filter
            (fun r => r.id ∉ (db.matchArticles (simCount N F).toNat).map RArt.id)).take
          (randCount N F).toNat).map (fun r => { r with similarity := 0 }) ∧
    (rank db F N).length = N ∧
    (F = 1 → rank db F N = db.matchArticles N) ∧
    (F = 0 → simCount N F = 1 ∧ randCount N F = (N : ℤ) - 1) := by
  have hpy : pyInt ((N : ℚ) * F) = ⌊(N : ℚ) * F⌋ := by
    rw [pyInt, if_pos (mul_nonneg (by positivity) hF0)]
  have hsimeq : simCount N F = max 1 ⌊(N : ℚ) * F⌋ := by rw [simCount, hpy]
  have hfl : ⌊(N : ℚ) * F⌋ ≤ (N : ℤ) := by
    have hle : (N : ℚ) * F ≤ (N : ℚ) := mul_le_of_le_one_right (by positivity) hF1
    calc ⌊(N : ℚ) * F⌋ ≤ ⌊(N : ℚ)⌋ := Int.floor_le_floor hle
    _ = (N : ℤ) := Int.floor_natCast N
  have hK1 : 1 ≤ simCount N F := le_max_left _ _
  have hKN : simCount N F ≤ (N : ℤ) := by
    rw [hsimeq]; exact max_le (by exact_mod_cast hN) hfl
  have hrc : randCount N F = (N : ℤ) - simCount N F := rfl
  have hmain : rank db F N =
      db.matchArticles (simCount N F).toNat ++
        (((db.randomArticles (randCount N F + 10).toNat).filter
            (fun r => r.id ∉ (db.matchArticles (simCount N F).toNat).map RArt.id)).take
          (randCount N F).toNat).map (fun r => { r with similarity := 0 }) := by
    rw [rank_unfold db F N huv]
    by_cases hpos : 0 < randCount N F
    · rw [if_pos hpos]
      have hcap : N - (db.matchArticles (simCount N F).toNat).length = (randCount N F).toNat := by
        rw [hsim, hrc]; omega
      rw [appendFresh_of_enough _ _ _ _ _ _ (by rw [hcap]; exact hrand), hcap]
    · rw [if_neg hpos]
      have : (randCount N F).toNat = 0 := by omega
      rw [this]
      simp
  refine ⟨hsimeq, hmain, ?_, ?_, ?_⟩
  · rw [hmain]
    rw [List.length_append, List.length_map, List.length_take, hsim]
    rw [min_eq_left hrand]
    omega
  · intro h1
    subst h1
    have hs : simCount N 1 = (N : ℤ) := by
      rw [hsimeq, mul_one, Int.floor_natCast]
      exact max_eq_right (by exact_mod_cast hN)
    have hr : randCount N 1 = 0 := by rw [hrc, hs]; ring
    rw [hmain, hr, hs]
    simp
  · intro h0
    subst h0
    constructor
    · rw [hsimeq, mul_zero, Int.floor_zero]
      rfl
    · rw [hrc, hsimeq, mul_zero, Int.floor_zero]
      rfl

/-- Witness for `rank_blend_counts` at `F = 1/2`, `N = 4` on `exDB`:
`K_sim = 2`, `K_rand = 2`. -/
theorem rank_blend_counts_witness :
    simCount 4 (1/2) = max 1 ⌊(4 : ℚ) * (1/2)⌋ ∧
    rank exDB (1/2) 4 =
      exDB.matchArticles (simCount 4 (1/2)).toNat ++
        (((exDB.randomArticles (randCount 4 (1/2) + 10).toNat).filter
            (fun r => r.id ∉ (exDB.matchArticles (simCount 4 (1/2)).toNat).map RArt.id)).take
          (randCount 4 (1/2)).toNat).map (fun r => { r with similarity := 0 }) ∧
    (rank exDB (1/2) 4).length = 4 ∧
    ((1/2 : ℚ) = 1 → rank exDB (1/2) 4 = exDB.matchArticles 4) ∧
    ((1/2 : ℚ) = 0 → simCount 4 (1/2) = 1 ∧ randCount 4 (1/2) = (4 : ℤ) - 1) :=
  by
  have e1 : simCount 4 (1/2) = 2 := by
    rw [simCount, pyInt, if_pos (by norm_num)]
    norm_num
  have e2 : randCount 4 (1/2) = 2 := by
    rw [randCount, e1]
    norm_num
  exact rank_blend_counts exDB (1/2) 4 (by norm_num) (by norm_num) (by norm_num) rfl
    (by rw [e1]; rfl) (by rw [e1, e2]; decide)

/-- C6: for `F ∈ [0,1]`, `N ≥ 1` and a present user vector, given that
`match_articles` returns at most the requested count with
pairwise-distinct ids and `random_articles` returns pairwise-distinct ids,
`rank` returns at most `N` rows with pairwise-distinct ids, ordered as the
similarity rows first followed by random fills, and every random fill has
`similarity = 0` and an id outside the similarity set. -/
theorem rank_nodup_bounded (db : RankDB) (F : ℚ) (N : ℕ)
    (hF0 : 0 ≤ F) (hF1 : F ≤ 1) (hN : 1 ≤ N)
    (huv : pyFalsy db.userVec = false)
    (hsimlen : (db.matchArticles (simCount N F).toNat).length ≤ (simCount N F).toNat)
    (hsimnd : ((db.matchArticles (simCount N F).toNat).map RArt.id).Nodup)
    (hrandnd : ((db.randomArticles (randCount N F + 10).toNat).map RArt.id).Nodup) :
    (rank db F N).length ≤ N ∧
    ((rank db F N).map RArt.id).Nodup ∧
    ∃ fills : List RArt,
      rank db F N = db.matchArticles (simCount N F).toNat ++ fills ∧
      ∀ r ∈ fills, r.similarity = 0 ∧
        r.id ∉ (db.matchArticles (simCount N F).toNat).map RArt.id := by
  have hpy : pyInt ((N : ℚ) * F) = ⌊(N : ℚ) * F⌋ := by
    rw [pyInt, if_pos (mul_nonneg (by positivity) hF0)]
  have hfl : ⌊(N : ℚ) * F⌋ ≤ (N : ℤ) := by
    have hle : (N : ℚ) * F ≤ (N : ℚ) := mul_le_of_le_one_right (by positivity) hF1
    calc ⌊(N : ℚ) * F⌋ ≤ ⌊(N : ℚ)⌋ := Int.floor_le_floor hle
    _ = (N : ℤ) := Int.floor_natCast N
  have hKN : (simCount N F).toNat ≤ N := by
    have : simCount N F ≤ (N : ℤ) := by
      rw [simCount, hpy]; exact max_le (by exact_mod_cast hN) hfl
    omega
  rw [rank_unfold db F N huv]
  by_cases hpos : 0 < randCount N F
  case neg =>
    rw [if_neg hpos]
    exact ⟨hsimlen.trans hKN, hsimnd, [], by simp, by simp⟩
  case pos =>
  rw [if_pos hpos]
  obtain ⟨news, h1, h2, h3⟩ :=
    appendFresh_split (fun r => { r with similarity := 0 }) RArt.id N
      ((db.matchArticles (simCount N F).toNat).map RArt.id)
      (db.randomArticles (randCount N F + 10).toNat)
      (db.matchArticles (simCount N F).toNat)
  have hnews : ∀ r ∈ news, r.similarity = 0 ∧
      r.id ∉ (db.matchArticles (simCount N F).toNat).map RArt.id := by
    intro r hr
    have hr' := h2.subset hr
    rw [List.mem_map] at hr'
    obtain ⟨r', hmem, rfl⟩ := hr'
    rw [List.mem_filter] at hmem
    exact ⟨rfl, of_decide_eq_true hmem.2⟩
  have hcomp : (RArt.id ∘ fun r : RArt => { r with similarity := 0 }) = RArt.id := rfl
  have hsub : List.Sublist (news.map RArt.id)
      ((db.randomArticles (randCount N F + 10).toNat).map RArt.id) := by
    have hm := h2.map RArt.id
    rw [List.map_map, hcomp] at hm
    exact hm.trans ((List.filter_sublist _).map RArt.id)
  refine ⟨h3.trans (by omega), ?_, news, h1, hnews⟩
  rw [h1, List.map_append, List.nodup_append]
  refine ⟨hsimnd, hrandnd.sublist hsub, ?_⟩
  intro i hi hi'
  rw [List.mem_map] at hi'
  obtain ⟨r, hr, rfl⟩ := hi'
  exact (hnews r hr).2 hi

/-- Witness for `rank_nodup_bounded` at `F = 1/2`, `N = 4` on `exDB`. -/
theorem rank_nodup_bounded_witness :
    (rank exDB (1/2) 4).length ≤ 4 ∧
    ((rank exDB (1/2) 4).map RArt.id).Nodup ∧
    ∃ fills : List RArt,
      rank exDB (1/2) 4 = exDB.matchArticles (simCount 4 (1/2)).toNat ++ fills ∧
      ∀ r ∈ fills, r.similarity = 0 ∧
        r.id ∉ (exDB.matchArticles (simCount 4 (1/2)).toNat).map RArt.id := by
  have e1 : simCount 4 (1/2) = 2 := by
    rw [simCount, pyInt, if_pos (by norm_num)]
    norm_num
  have e2 : randCount 4 (1/2) = 2 := by
    rw [randCount, e1]
    norm_num
  exact rank_nodup_bounded exDB (1/2) 4 (by norm_num) (by norm_num) (by norm_num) rfl
    (by rw [e1]; decide) (by rw [e1]; decide) (by rw [e2]; decide)

/-- C8 counterexample: calling `rank` with `filter_strength = 2` (outside
`[0,1]`) raises no error at all — it returns a normal result list, and one
that even exceeds `top_n = 1` rows, since `similar_count = max(1, ⌊1·2⌋) = 2`
is requested without any range check. -/
theorem rank_no_validation_cex :
    rank exDB 2 1 = [⟨0, 9/10⟩, ⟨1, 9/10⟩] ∧ 1 < (rank exDB 2 1).length := by
  have e1 : simCount 1 2 = 2 := by
    rw [simCount, pyInt, if_pos (by norm_num)]
    norm_num
  have e2 : randCount 1 2 = -1 := by
    rw [randCount, e1]
    norm_num
  have h : rank exDB 2 1 = exDB.matchArticles (simCount 1 2).toNat := by
    rw [rank_unfold exDB 2 1 rfl, if_neg (by rw [e2]; decide)]
  rw [h, e1]
  exact ⟨rfl, by decide⟩

/-- C8 amended: constructing the engine with an empty `user_id` raises the
typed `ValueError` and any non-empty `user_id` is accepted; `rank`, on the
other hand, performs no validation of `filter_strength`: for any `F > 1`
(user vector present) it runs normally and returns whatever
`match_articles` gives for the unchecked count `max(1, ⌊N·F⌋) ≥ N`. -/
theorem engine_boundary_amended (uid : String) (db : RankDB) (F : ℚ) (N : ℕ)
    (hF : 1 < F) (huv : pyFalsy db.userVec = false) :
    (initEngine uid = Except.error "user_id (email) is required" ↔ uid = "") ∧
    (N : ℤ) ≤ simCount N F ∧
    rank db F N = db.matchArticles (simCount N F).toNat := by
  have hinit : initEngine uid = Except.error "user_id (email) is required" ↔ uid = "" := by
    rw [initEngine]
    by_cases h : uid = ""
    · rw [if_pos h]
      simp [h]
    · rw [if_neg h]
      simp [h]
  have hpy : pyInt ((N : ℚ) * F) = ⌊(N : ℚ) * F⌋ := by
    rw [pyInt, if_pos (mul_nonneg (by positivity) (le_of_lt (lt_trans one_pos hF)))]
  have hge : (N : ℤ) ≤ simCount N F := by
    rw [simCount, hpy]
    refine le_max_of_le_right ?_
    rw [Int.le_floor]
    push_cast
    exact le_mul_of_one_le_right (by positivity) (le_of_lt hF)
  have hrc : randCount N F ≤ 0 := by
    rw [randCount]
    omega
  refine ⟨hinit, hge, ?_⟩
  rw [rank_unfold db F N huv, if_neg (by omega)]

/-- Witness for `engine_boundary_amended` at a non-empty user id and
`F = 2 > 1`, `N = 1` on `exDB`. -/
theorem engine_boundary_amended_witness :
    (initEngine "alice@example.com" = Except.error "user_id (email) is required" ↔
      "alice@example.com" = "") ∧
    ((1 : ℕ) : ℤ) ≤ simCount 1 2 ∧
    rank exDB 2 1 = exDB.matchArticles (simCount 1 2).toNat :=
  engine_boundary_amended "alice@example.com" exDB 2 1 (by norm_num) rfl

/-- C9 counterexample: for `count = 10` and 3 categories the code's
per-category cap is `max(3, 10 // 3) = 3` (floor division), not the
claimed `max(3, ⌈10/3⌉) = 4`; with four articles available per category
the fetch therefore pulls 3 per category (9 rows) and pads from the
random pool, instead of pulling 4 per category. -/
theorem onboarding_percat_cex :
    perCat 10 ["a", "b", "c"] = 3 ∧
    perCatSpec 10 ["a", "b", "c"] = 4 ∧
    perCat 10 ["a", "b", "c"] ≠ perCatSpec 10 ["a", "b", "c"] ∧
    get_onboarding_articles exODB ["a", "b", "c"] 10 =
      [⟨10⟩, ⟨11⟩, ⟨12⟩, ⟨20⟩, ⟨21⟩, ⟨22⟩, ⟨30⟩, ⟨31⟩, ⟨32⟩, ⟨900⟩] := by
  have hspec : perCatSpec 10 ["a", "b", "c"] = 4 := by
    rw [perCatSpec]
    have : ⌈((10 : ℕ) : ℚ) / ((["a", "b", "c"] : List String).length : ℚ)⌉ = 4 := by
      rw [show ((["a", "b", "c"] : List String).length : ℚ) = 3 by norm_num]
      rw [Int.ceil_eq_iff]
      norm_num
    rw [this]
    rfl
  refine ⟨rfl, hspec, ?_, ?_⟩
  · rw [hspec]
    decide
  · rfl

/-- C9 amended: for every non-empty category list the per-category cap is
`max(3, ⌊count/|cats|⌋)` (floor division, not ceiling); the category
pulls come first, the padding rows are random picks whose ids avoid the
already-pulled id set, and at most `count` rows are returned. -/
theorem onboarding_articles_amended (db : OnboardDB) (categories : List String) (count : ℕ)
    (hcats : categories ≠ []) :
    perCat count categories = max 3 (count / categories.length) ∧
    (get_onboarding_articles db categories count).length ≤ count ∧
    ∃ pad : List OArt,
      get_onboarding_articles db categories count =
        ((categories.flatMap fun c => db.byCategory c (perCat count categories)) ++ pad).take
          count ∧
      List.Sublist pad
        ((db.randomArticles
            (count - (categories.flatMap fun c =>
              db.byCategory c (perCat count categories)).length + 5)).filter
          (fun r => r.id ∉ (categories.flatMap fun c =>
            db.byCategory c (perCat count categories)).map OArt.id)) := by
  have hlen : 1 ≤ categories.length := by
    cases categories with
    | nil => exact absurd rfl hcats
    | cons a t => simp
  refine ⟨?_, ?_, ?_⟩
  · rw [perCat, Nat.max_eq_right hlen]
  · rw [get_onboarding_articles]
    exact List.length_take_le _ _
  · rw [get_onboarding_articles]
    by_cases hshort :
        (categories.flatMap fun c => db.byCategory c (perCat count categories)).length < count
    · rw [if_pos hshort]
      obtain ⟨news, h1, h2, -⟩ :=
        appendFresh_split id OArt.id count
          ((categories.flatMap fun c => db.byCategory c (perCat count categories)).map OArt.id)
          (db.randomArticles
            (count - (categories.flatMap fun c =>
              db.byCategory c (perCat count categories)).length + 5))
          (categories.flatMap fun c => db.byCategory c (perCat count categories))
      rw [List.map_id] at h2
      exact ⟨news, by rw [h1], h2⟩
    · rw [if_neg hshort]
      refine ⟨[], ?_, List.nil_sublist _⟩
      rw [List.append_nil]

/-- Witness for `onboarding_articles_amended` on the concrete store
`exODB` with categories `["a","b","c"]` and `count = 10`. -/
theorem onboarding_articles_amended_witness :
    perCat 10 ["a", "b", "c"] = max 3 (10 / (["a", "b", "c"] : List String).length) ∧
    (get_onboarding_articles exODB ["a", "b", "c"] 10).length ≤ 10 ∧
    ∃ pad : List OArt,
      get_onboarding_articles exODB ["a", "b", "c"] 10 =
        ((["a", "b", "c"].flatMap fun c => exODB.byCategory c (perCat 10 ["a", "b", "c"])) ++
          pad).take 10 ∧
      List.Sublist pad
        ((exODB.randomArticles
            (10 - (["a", "b", "c"].flatMap fun c =>
              exODB.byCategory c (perCat 10 ["a", "b", "c"])).length + 5)).filter
          (fun r => r.id ∉ (["a", "b", "c"].flatMap fun c =>
            exODB.byCategory c (perCat 10 ["a", "b", "c"])).map OArt.id)) :=
  onboarding_articles_amended exODB ["a", "b", "c"] 10 (by decide)

/-! ## List-sum helpers for the entropy bound -/

theorem list_sum_map_add {α : Type} (l : List α) (f g : α → ℝ) :
    (l.map fun x => f x + g x).sum = (l.map f).sum + (l.map g).sum := by
  induction l with
  | nil => simp
  | cons a t ih => simp [ih]; ring

theorem list_sum_map_mul_right {α : Type} (l : List α) (f : α → ℝ) (r : ℝ) :
    (l.map fun x => f x * r).sum = (l.map f).sum * r := by
  induction l with
  | nil => simp
  | cons a t ih => simp [ih]; ring

theorem list_sum_map_div {α : Type} (l : List α) (f : α → ℝ) (r : ℝ) :
    (l.map fun x => f x / r).sum = (l.map f).sum / r := by
  simp only [div_eq_mul_inv]
  exact list_sum_map_mul_right l f r⁻¹

theorem list_sum_map_const {α : Type} (l : List α) (a : ℝ) :
    (l.map fun _ => a).sum = l.length * a := by
  induction l with
  | nil => simp
  | cons x t ih => simp [ih]; ring

theorem list_sum_map_zero_iff {α : Type} (l : List α) (f : α → ℝ)
    (h : ∀ x ∈ l, 0 ≤ f x) : (l.map f).sum = 0 ↔ ∀ x ∈ l, f x = 0 := by
  induction l with
  | nil => simp
  | cons a t ih =>
    have ha : 0 ≤ f a := h a (by simp)
    have ht : 0 ≤ (t.map f).sum := by
      apply List.sum_nonneg
      intro x hx
      obtain ⟨y, hy, rfl⟩ := List.mem_map.mp hx
      exact h y (by simp [hy])
    simp only [List.map_cons, List.sum_cons, List.mem_cons]
    rw [add_eq_zero_iff_of_nonneg ha ht, ih (fun x hx => h x (by simp [hx]))]
    constructor
    · rintro ⟨h1, h2⟩ x (rfl | hx)
      · exact h1
      · exact h2 x hx
    · intro hall
      exact ⟨hall a (Or.inl rfl), fun x hx => hall x (Or.inr hx)⟩

theorem list_sum_all_eq (l : List ℕ) (k : ℕ) (h : ∀ x ∈ l, x = k) :
    l.sum = l.length * k := by
  induction l with
  | nil => simp
  | cons a t ih =>
    have ha : a = k := h a (by simp)
    rw [List.sum_cons, List.length_cons, ih (fun x hx => h x (by simp [hx])), ha]
    ring

/-! ## The logarithmic inequality `1 - 1/x ≤ log x` with its equality case -/

theorem one_sub_inv_le_log {x : ℝ} (hx : 0 < x) : 1 - x⁻¹ ≤ Real.log x := by
  have h := Real.log_le_sub_one_of_pos (inv_pos.mpr hx)
  rw [Real.log_inv] at h
  linarith

theorem one_sub_inv_lt_log {x : ℝ} (hx : 0 < x) (hne : x ≠ 1) : 1 - x⁻¹ < Real.log x := by
  have h := Real.log_lt_sub_one_of_pos (inv_pos.mpr hx) (by simpa using hne)
  rw [Real.log_inv] at h
  linarith

theorem log_eq_one_sub_inv_iff {x : ℝ} (hx : 0 < x) :
    Real.log x - (1 - x⁻¹) = 0 ↔ x = 1 := by
  constructor
  · intro h
    by_contra hne
    have := one_sub_inv_lt_log hx hne
    linarith
  · rintro rfl
    simp

/-- Gibbs' inequality for a list of positive counts: the natural-log
entropy of the normalized distribution is at most `log n`, with equality
exactly when the distribution is uniform. -/
theorem entropy_le_log (cs : List ℕ) (hpos : ∀ c ∈ cs, 0 < c) (hn : 2 ≤ cs.length) :
    -((cs.map fun (c : ℕ) => ((c : ℝ) / ((cs.sum : ℕ) : ℝ)) *
        Real.log ((c : ℝ) / ((cs.sum : ℕ) : ℝ))).sum) ≤ Real.log (cs.length : ℝ) ∧
    (-((cs.map fun (c : ℕ) => ((c : ℝ) / ((cs.sum : ℕ) : ℝ)) *
        Real.log ((c : ℝ) / ((cs.sum : ℕ) : ℝ))).sum) = Real.log (cs.length : ℝ) ↔
      ∀ c ∈ cs, (c : ℝ) * (cs.length : ℝ) = ((cs.sum : ℕ) : ℝ)) := by
  have hT0 : 0 < cs.sum := by
    cases cs with
    | nil => simp at hn
    | cons a t =>
      have : 0 < a := hpos a (by simp)
      simp only [List.sum_cons]
      omega
  set T : ℝ := ((cs.sum : ℕ) : ℝ) with hTdef
  set n : ℝ := (cs.length : ℝ) with hndef
  have hTpos : (0 : ℝ) < T := by rw [hTdef]; exact_mod_cast hT0
  have hTne : T ≠ 0 := ne_of_gt hTpos
  have hnpos : (0 : ℝ) < n := by
    rw [hndef]
    exact_mod_cast Nat.lt_of_lt_of_le (by norm_num) hn
  have hnne : n ≠ 0 := ne_of_gt hnpos
  have hsum_cast : (cs.map fun (c : ℕ) => ((c : ℝ))).sum = T := (Nat.cast_list_sum cs).symm
  have hratio : (cs.map fun (c : ℕ) => ((c : ℝ) / T)).sum = 1 := by
    rw [list_sum_map_div, hsum_cast, div_self hTne]
  have hcTpos : ∀ c ∈ cs, 0 < (c : ℝ) / T := fun c hc =>
    div_pos (by exact_mod_cast hpos c hc) hTpos
  have hd_nonneg : ∀ c ∈ cs,
      0 ≤ ((c : ℝ) / T) * (Real.log (n * ((c : ℝ) / T)) - (1 - (n * ((c : ℝ) / T))⁻¹)) := by
    intro c hc
    have hx : 0 < n * ((c : ℝ) / T) := mul_pos hnpos (hcTpos c hc)
    exact mul_nonneg (hcTpos c hc).le (sub_nonneg.mpr (one_sub_inv_le_log hx))
  have hsplit : (cs.map fun (c : ℕ) => ((c : ℝ) / T) * Real.log (n * ((c : ℝ) / T))).sum =
      (cs.map fun (c : ℕ) =>
        ((c : ℝ) / T) * (Real.log (n * ((c : ℝ) / T)) - (1 - (n * ((c : ℝ) / T))⁻¹))).sum +
      (cs.map fun (c : ℕ) => ((c : ℝ) / T) - n⁻¹).sum := by
    rw [← list_sum_map_add]
    apply congrArg List.sum
    apply List.map_congr_left
    intro c hc
    have hy := hcTpos c hc
    have hyx : ((c : ℝ) / T) * (n * ((c : ℝ) / T))⁻¹ = n⁻¹ := by
      rw [mul_inv, ← mul_assoc, mul_comm ((c : ℝ) / T) n⁻¹, mul_assoc,
        mul_inv_cancel₀ (ne_of_gt hy), mul_one]
    linear_combination -hyx
  have hzero : (cs.map fun (c : ℕ) => ((c : ℝ) / T) - n⁻¹).sum = 0 := by
    have h1 : (cs.map fun (c : ℕ) => ((c : ℝ) / T) - n⁻¹).sum =
        (cs.map fun (c : ℕ) => ((c : ℝ) / T)).sum + (cs.map fun (_ : ℕ) => -n⁻¹).sum := by
      rw [← list_sum_map_add]
      apply congrArg List.sum
      apply List.map_congr_left
      intro c _
      ring
    rw [h1, hratio, list_sum_map_const, hndef]
    field_simp
  have hexpand : (cs.map fun (c : ℕ) => ((c : ℝ) / T) * Real.log (n * ((c : ℝ) / T))).sum =
      Real.log n + (cs.map fun (c : ℕ) => ((c : ℝ) / T) * Real.log ((c : ℝ) / T)).sum := by
    have h1 : (cs.map fun (c : ℕ) => ((c : ℝ) / T) * Real.log (n * ((c : ℝ) / T))).sum =
        (cs.map fun (c : ℕ) => ((c : ℝ) / T) * Real.log n +
          ((c : ℝ) / T) * Real.log ((c : ℝ) / T)).sum := by
      apply congrArg List.sum
      apply List.map_congr_left
      intro c hc
      rw [Real.log_mul hnne (ne_of_gt (hcTpos c hc))]
      ring
    have h2 : (cs.map fun (c : ℕ) => ((c : ℝ) / T) * Real.log n).sum = Real.log n := by
      rw [list_sum_map_mul_right, hratio, one_mul]
    rw [h1, list_sum_map_add, h2]
  have hkey : Real.log n + (cs.map fun (c : ℕ) => ((c : ℝ) / T) * Real.log ((c : ℝ) / T)).sum =
      (cs.map fun (c : ℕ) =>
        ((c : ℝ) / T) * (Real.log (n * ((c : ℝ) / T)) - (1 - (n * ((c : ℝ) / T))⁻¹))).sum := by
    rw [← hexpand, hsplit, hzero, add_zero]
  have hD_nonneg : 0 ≤ (cs.map fun (c : ℕ) =>
      ((c : ℝ) / T) * (Real.log (n * ((c : ℝ) / T)) - (1 - (n * ((c : ℝ) / T))⁻¹))).sum := by
    apply List.sum_nonneg
    intro x hx
    obtain ⟨c, hc, rfl⟩ := List.mem_map.mp hx
    exact hd_nonneg c hc
  constructor
  · linarith [hkey, hD_nonneg]
  · constructor
    · intro heq
      have hDzero : (cs.map fun (c : ℕ) =>
          ((c : ℝ) / T) * (Real.log (n * ((c : ℝ) / T)) - (1 - (n * ((c : ℝ) / T))⁻¹))).sum
            = 0 := by
        linarith [hkey]
      rw [list_sum_map_zero_iff _ _ hd_nonneg] at hDzero
      intro c hc
      have hterm := hDzero c hc
      have hy := hcTpos c hc
      have hx : 0 < n * ((c : ℝ) / T) := mul_pos hnpos hy
      rcases mul_eq_zero.mp hterm with h | h
      · exact absurd h (ne_of_gt hy)
      · have hx1 : n * ((c : ℝ) / T) = 1 := (log_eq_one_sub_inv_iff hx).mp h
        rw [← mul_div_assoc, div_eq_one_iff_eq hTne] at hx1
        linear_combination hx1
    · intro huni
      have hall : ∀ c ∈ cs, ((c : ℝ) / T) *
          (Real.log (n * ((c : ℝ) / T)) - (1 - (n * ((c : ℝ) / T))⁻¹)) = 0 := by
        intro c hc
        have hx1 : n * ((c : ℝ) / T) = 1 := by
          rw [← mul_div_assoc, div_eq_one_iff_eq hTne]
          linear_combination huni c hc
        rw [hx1]
        simp
      have hzero2 : (cs.map fun (c : ℕ) =>
          ((c : ℝ) / T) * (Real.log (n * ((c : ℝ) / T)) - (1 - (n * ((c : ℝ) / T))⁻¹))).sum
            = 0 := by
        rw [list_sum_map_zero_iff _ _ hd_nonneg]
        exact hall
      linarith [hkey, hzero2]

theorem list_sum_map_nonpos {α : Type} (l : List α) (f : α → ℝ)
    (h : ∀ x ∈ l, f x ≤ 0) : (l.map f).sum ≤ 0 := by
  induction l with
  | nil => simp
  | cons a t ih =>
    have ha := h a (by simp)
    have ht := ih fun x hx => h x (by simp [hx])
    simp only [List.map_cons, List.sum_cons]
    linarith

/-- The natural-log entropy sum is nonnegative when every count is at most
the total. -/
theorem entropy_nonneg (cs : List ℕ) (T : ℝ) (hT : 0 < T)
    (hle : ∀ c ∈ cs, (c : ℝ) ≤ T) :
    0 ≤ -((cs.map fun (c : ℕ) => ((c : ℝ) / T) * Real.log ((c : ℝ) / T)).sum) := by
  rw [neg_nonneg]
  apply list_sum_map_nonpos
  intro c hc
  have h0 : 0 ≤ (c : ℝ) / T := div_nonneg (by positivity) hT.le
  have h1 : (c : ℝ) / T ≤ 1 := (div_le_one hT).mpr (hle c hc)
  exact mul_nonpos_iff.mpr (Or.inl ⟨h0, Real.log_nonpos h0 h1⟩)

/-- `shannonEntropy` (base-2) is the natural-log entropy divided by `log 2`. -/
theorem shannonEntropy_eq (cs : List ℕ) (T : ℝ) :
    shannonEntropy cs T =
      (-((cs.map fun (c : ℕ) => ((c : ℝ) / T) * Real.log ((c : ℝ) / T)).sum)) / Real.log 2 := by
  have h1 : (cs.map fun (c : ℕ) => ((c : ℝ) / T) * Real.logb 2 ((c : ℝ) / T)) =
      cs.map fun (c : ℕ) => (((c : ℝ) / T) * Real.log ((c : ℝ) / T)) / Real.log 2 := by
    apply List.map_congr_left
    intro c _
    rw [Real.logb]
    ring
  rw [shannonEntropy, h1, list_sum_map_div, neg_div]

theorem labelCounts_pos (items : List String) : ∀ c ∈ labelCounts items, 0 < c := by
  intro c hc
  obtain ⟨l, hl, rfl⟩ := List.mem_map.mp hc
  exact List.count_pos_iff.mpr (List.mem_dedup.mp hl)

theorem labelCounts_sum (items : List String) : (labelCounts items).sum = items.length :=
  List.sum_map_count_dedup_eq_length items

theorem labelCounts_le_sum (items : List String) :
    ∀ c ∈ labelCounts items, c ≤ (labelCounts items).sum := by
  intro c hc
  exact List.single_le_sum (fun x _ => Nat.zero_le x) c hc

/-- Uniformity of the normalized count distribution is the same as all
labels of `items` having equal counts. -/
theorem uniform_counts_iff (items : List String) (hn : 2 ≤ (labelCounts items).length) :
    (∀ c ∈ labelCounts items,
      (c : ℝ) * ((labelCounts items).length : ℝ) = (((labelCounts items).sum : ℕ) : ℝ)) ↔
    ∀ a ∈ items, ∀ b ∈ items, items.count a = items.count b := by
  have hLne : ((labelCounts items).length : ℝ) ≠ 0 := by
    have : (0 : ℕ) < (labelCounts items).length := by omega
    exact_mod_cast Nat.pos_iff_ne_zero.mp this
  constructor
  · intro h a ha b hb
    have hca : items.count a ∈ labelCounts items :=
      List.mem_map_of_mem _ (List.mem_dedup.mpr ha)
    have hcb : items.count b ∈ labelCounts items :=
      List.mem_map_of_mem _ (List.mem_dedup.mpr hb)
    have heq : (items.count a : ℝ) * ((labelCounts items).length : ℝ) =
        (items.count b : ℝ) * ((labelCounts items).length : ℝ) :=
      (h _ hca).trans (h _ hcb).symm
    have : (items.count a : ℝ) = (items.count b : ℝ) :=
      mul_right_cancel₀ hLne heq
    exact_mod_cast this
  · intro h c hc
    obtain ⟨a, ha, rfl⟩ := List.mem_map.mp hc
    have ha' : a ∈ items := List.mem_dedup.mp ha
    have hall : ∀ x ∈ labelCounts items, x = items.count a := by
      intro x hx
      obtain ⟨b, hb, rfl⟩ := List.mem_map.mp hx
      exact h b (List.mem_dedup.mp hb) a ha'
    have hsum := list_sum_all_eq (labelCounts items) (items.count a) hall
    rw [hsum]
    push_cast
    ring

/-- C7: for every multiset of viewed-article labels the diversity score
lies in `[0, 100]`; it is `0` when there is at most one distinct label,
otherwise it equals `⌊100·H / log2(n)⌋` for the Shannon entropy `H` of the
label distribution, and it equals `100` exactly when the distribution is
uniform over at least two distinct labels. -/
theorem diversity_score_range (items : List String) :
    (0 ≤ diversityScore items ∧ diversityScore items ≤ 100) ∧
    ((labelCounts items).length ≤ 1 → diversityScore items = 0) ∧
    (2 ≤ (labelCounts items).length →
      diversityScore items =
        ⌊100 * shannonEntropy (labelCounts items) (((labelCounts items).sum : ℕ) : ℝ) /
          Real.logb 2 ((labelCounts items).length : ℝ)⌋) ∧
    (diversityScore items = 100 ↔
      2 ≤ (labelCounts items).length ∧
      ∀ a ∈ items, ∀ b ∈ items, items.count a = items.count b) := by
  by_cases hn1 : (labelCounts items).length ≤ 1
  · have hz : diversityScore items = 0 := by
      simp only [diversityScore]
      rw [if_pos hn1]
    refine ⟨⟨by rw [hz], by rw [hz]; norm_num⟩, fun _ => hz,
      fun h2 => absurd h2 (by omega), ?_⟩
    rw [hz]
    constructor
    · intro h
      exact absurd h (by norm_num)
    · rintro ⟨h2, -⟩
      exact absurd h2 (by omega)
  · have hn2 : 2 ≤ (labelCounts items).length := by omega
    have hposc := labelCounts_pos items
    have hgibbs := entropy_le_log (labelCounts items) hposc hn2
    have hTpos0 : 0 < (labelCounts items).sum := by
      have hne : labelCounts items ≠ [] := by
        intro h
        rw [h] at hn2
        simp at hn2
      obtain ⟨c0, hc0⟩ := List.exists_mem_of_ne_nil _ hne
      have h1 : 0 < c0 := hposc c0 hc0
      have h2 : c0 ≤ (labelCounts items).sum := labelCounts_le_sum items c0 hc0
      omega
    have hTpos : (0 : ℝ) < (((labelCounts items).sum : ℕ) : ℝ) := by exact_mod_cast hTpos0
    have hle : ∀ c ∈ labelCounts items,
        (c : ℝ) ≤ (((labelCounts items).sum : ℕ) : ℝ) := by
      intro c hc
      exact_mod_cast labelCounts_le_sum items c hc
    have hH0 := entropy_nonneg (labelCounts items) _ hTpos hle
    have hlog2 : (0 : ℝ) < Real.log 2 := Real.log_pos one_lt_two
    have hlogn : (0 : ℝ) < Real.log ((labelCounts items).length : ℝ) := by
      apply Real.log_pos
      have : 1 < (labelCounts items).length := by omega
      exact_mod_cast this
    have hratio_eq : shannonEntropy (labelCounts items) (((labelCounts items).sum : ℕ) : ℝ) /
        Real.logb 2 ((labelCounts items).length : ℝ) =
        (-(((labelCounts items).map fun (c : ℕ) =>
            ((c : ℝ) / (((labelCounts items).sum : ℕ) : ℝ)) *
              Real.log ((c : ℝ) / (((labelCounts items).sum : ℕ) : ℝ))).sum)) /
          Real.log ((labelCounts items).length : ℝ) := by
      rw [shannonEntropy_eq, Real.logb, div_div_eq_mul_div, div_mul_cancel₀ _ (ne_of_gt hlog2)]
    set Hv : ℝ := -(((labelCounts items).map fun (c : ℕ) =>
        ((c : ℝ) / (((labelCounts items).sum : ℕ) : ℝ)) *
          Real.log ((c : ℝ) / (((labelCounts items).sum : ℕ) : ℝ))).sum) with hHv
    have hscore : diversityScore items =
        pyIntR (Hv / Real.log ((labelCounts items).length : ℝ) * 100) := by
      simp only [diversityScore]
      rw [if_neg (by omega), hratio_eq]
    have hr0 : 0 ≤ Hv / Real.log ((labelCounts items).length : ℝ) :=
      div_nonneg hH0 hlogn.le
    have hr1 : Hv / Real.log ((labelCounts items).length : ℝ) ≤ 1 :=
      (div_le_one hlogn).mpr hgibbs.1
    have hpy' : pyIntR (Hv / Real.log ((labelCounts items).length : ℝ) * 100) =
        ⌊Hv / Real.log ((labelCounts items).length : ℝ) * 100⌋ := by
      rw [pyIntR, if_pos (by positivity)]
    have hb0 : (0 : ℤ) ≤ ⌊Hv / Real.log ((labelCounts items).length : ℝ) * 100⌋ :=
      Int.floor_nonneg.mpr (by positivity)
    have hb1 : ⌊Hv / Real.log ((labelCounts items).length : ℝ) * 100⌋ ≤ 100 := by
      have hle100 : Hv / Real.log ((labelCounts items).length : ℝ) * 100 ≤ 100 := by
        nlinarith [hr1]
      calc ⌊Hv / Real.log ((labelCounts items).length : ℝ) * 100⌋ ≤ ⌊(100 : ℝ)⌋ :=
        Int.floor_le_floor hle100
      _ = 100 := by norm_num
    refine ⟨⟨by rw [hscore, hpy']; exact hb0, by rw [hscore, hpy']; exact hb1⟩,
      fun h1 => absurd h1 (by omega), fun _ => ?_, ?_⟩
    · rw [hscore, hpy']
      congr 1
      rw [mul_div_assoc, hratio_eq]
      ring
    · rw [hscore, hpy']
      constructor
      · intro h
        have hfl := Int.floor_eq_iff.mp h
        have h100 : (100 : ℝ) ≤ Hv / Real.log ((labelCounts items).length : ℝ) * 100 := by
          exact_mod_cast hfl.1
        have hge1 : 1 ≤ Hv / Real.log ((labelCounts items).length : ℝ) := by linarith
        have hreq : Hv / Real.log ((labelCounts items).length : ℝ) = 1 :=
          le_antisymm hr1 hge1
        have hH : Hv = Real.log ((labelCounts items).length : ℝ) :=
          (div_eq_one_iff_eq (ne_of_gt hlogn)).mp hreq
        exact ⟨hn2, (uniform_counts_iff items hn2).mp (hgibbs.2.mp hH)⟩
      · rintro ⟨-, huni⟩
        have hH : Hv = Real.log ((labelCounts items).length : ℝ) :=
          hgibbs.2.mpr ((uniform_counts_iff items hn2).mpr huni)
        have hone : Hv / Real.log ((labelCounts items).length : ℝ) = 1 := by
          rw [hH]
          exact div_self (ne_of_gt hlogn)
        rw [hone]
        norm_num

/-! ## Claim theorems for the feedback update -/

/-- C2: `record_view`, `record_deep_dive`, `record_not_interested` apply
rates `+0.03`, `+0.15`, `−0.20`: an absent user vector becomes `v` under a
positive rate and stays absent under the negative one; a present vector
moves to the convex combination `(1−α)·u + α·v` for `α ≥ 0`; for
`α = −0.2` (so `s = 0.2`) the intermediate vector `w = 1.2·u − 0.2·v`, when
nonzero, is rescaled by `‖u‖/‖w‖`, preserving the Euclidean norm of `u`. -/
theorem feedback_rate_formulas {d : ℕ} (u v : EVec d) :
    recordViewVec (none : Option (EVec d)) (some v) = some v ∧
    recordDeepDiveVec (none : Option (EVec d)) (some v) = some v ∧
    recordNotInterestedVec (none : Option (EVec d)) (some v) = none ∧
    recordViewVec (some u) (some v) = some ((1 - 0.03 : ℝ) • u + (0.03 : ℝ) • v) ∧
    recordDeepDiveVec (some u) (some v) = some ((1 - 0.15 : ℝ) • u + (0.15 : ℝ) • v) ∧
    ((1 + 0.2 : ℝ) • u - (0.2 : ℝ) • v ≠ 0 →
      recordNotInterestedVec (some u) (some v) =
        some ((‖u‖ / ‖(1 + 0.2 : ℝ) • u - (0.2 : ℝ) • v‖) •
          ((1 + 0.2 : ℝ) • u - (0.2 : ℝ) • v)) ∧
      ‖(‖u‖ / ‖(1 + 0.2 : ℝ) • u - (0.2 : ℝ) • v‖) •
        ((1 + 0.2 : ℝ) • u - (0.2 : ℝ) • v)‖ = ‖u‖) := by
  have habs : |(-0.2 : ℝ)| = 0.2 := by norm_num
  refine ⟨?_, ?_, ?_, ?_, ?_, ?_⟩
  · simp only [recordViewVec, applyFeedback]
    rw [if_pos (by norm_num : (0 : ℝ) < 0.03)]
  · simp only [recordDeepDiveVec, applyFeedback]
    rw [if_pos (by norm_num : (0 : ℝ) < 0.15)]
  · simp only [recordNotInterestedVec, applyFeedback]
    rw [if_neg (by norm_num : ¬ (0 : ℝ) < -0.2)]
  · simp only [recordViewVec, applyFeedback]
    rw [if_pos (by norm_num : (0 : ℝ) ≤ 0.03)]
  · simp only [recordDeepDiveVec, applyFeedback]
    rw [if_pos (by norm_num : (0 : ℝ) ≤ 0.15)]
  · intro hw
    have hwpos : 0 < ‖(1 + 0.2 : ℝ) • u - (0.2 : ℝ) • v‖ := norm_pos_iff.mpr hw
    have hnorm : ‖(‖u‖ / ‖(1 + 0.2 : ℝ) • u - (0.2 : ℝ) • v‖) •
        ((1 + 0.2 : ℝ) • u - (0.2 : ℝ) • v)‖ = ‖u‖ := by
      rw [norm_smul, Real.norm_eq_abs,
        abs_of_nonneg (div_nonneg (norm_nonneg u) (norm_nonneg _)),
        div_mul_cancel₀ _ (ne_of_gt hwpos)]
    refine ⟨?_, hnorm⟩
    simp only [recordNotInterestedVec, applyFeedback, habs]
    rw [if_neg (by norm_num : ¬ (0 : ℝ) ≤ -0.2), if_pos hwpos]

/-- One feedback step never pushes the state norm above the max of the
previous state norm and the event's embedding norm. -/
theorem feedbackStep_bound {d : ℕ} (st : Option (EVec d)) (ev : FKind × Option (EVec d)) :
    vnorm (feedbackStep st ev) ≤ max (vnorm st) (vnorm ev.2) := by
  obtain ⟨k, emb⟩ := ev
  have hα1 : alphaOf k ≤ 1 := by cases k <;> norm_num [alphaOf]
  cases emb with
  | none =>
    simp only [feedbackStep, applyFeedback]
    exact le_max_left _ _
  | some v =>
    cases st with
    | none =>
      simp only [feedbackStep, applyFeedback]
      by_cases hα : 0 < alphaOf k
      · rw [if_pos hα]
        exact le_max_right _ _
      · rw [if_neg hα]
        simp only [vnorm]
        exact le_max_of_le_left (le_refl 0)
    | some u =>
      simp only [feedbackStep, applyFeedback]
      by_cases hα : 0 ≤ alphaOf k
      · rw [if_pos hα]
        simp only [vnorm]
        have h1 : ‖(1 - alphaOf k) • u + alphaOf k • v‖ ≤
            (1 - alphaOf k) * ‖u‖ + alphaOf k * ‖v‖ := by
          calc ‖(1 - alphaOf k) • u + alphaOf k • v‖ ≤
              ‖(1 - alphaOf k) • u‖ + ‖alphaOf k • v‖ := norm_add_le _ _
          _ = |1 - alphaOf k| * ‖u‖ + |alphaOf k| * ‖v‖ := by
            rw [norm_smul, norm_smul, Real.norm_eq_abs, Real.norm_eq_abs]
          _ = (1 - alphaOf k) * ‖u‖ + alphaOf k * ‖v‖ := by
            rw [abs_of_nonneg (by linarith), abs_of_nonneg hα]
        have h4 := mul_le_mul_of_nonneg_left (le_max_left ‖u‖ ‖v‖)
          (by linarith : (0 : ℝ) ≤ 1 - alphaOf k)
        have h5 := mul_le_mul_of_nonneg_left (le_max_right ‖u‖ ‖v‖) hα
        linarith
      · rw [if_neg hα]
        by_cases hw : 0 < ‖(1 + |alphaOf k|) • u - |alphaOf k| • v‖
        · rw [if_pos hw]
          simp only [vnorm]
          rw [norm_smul, Real.norm_eq_abs,
            abs_of_nonneg (div_nonneg (norm_nonneg u) (norm_nonneg _)),
            div_mul_cancel₀ _ (ne_of_gt hw)]
          exact le_max_left _ _
        · rw [if_neg hw]
          simp only [vnorm]
          have hz : ‖(1 + |alphaOf k|) • u - |alphaOf k| • v‖ = 0 :=
            le_antisymm (not_lt.mp hw) (norm_nonneg _)
          rw [hz]
          exact le_max_of_le_left (norm_nonneg u)

theorem maxEmbNorm_nonneg {d : ℕ} (evs : List (FKind × Option (EVec d))) :
    0 ≤ maxEmbNorm evs := by
  induction evs with
  | nil => simp [maxEmbNorm]
  | cons e t ih =>
    simp only [maxEmbNorm, List.map_cons, List.foldr_cons]
    exact le_max_of_le_right ih

theorem maxEmbNorm_take_le {d : ℕ} (evs : List (FKind × Option (EVec d))) (k : ℕ) :
    maxEmbNorm (evs.take k) ≤ maxEmbNorm evs := by
  induction evs generalizing k with
  | nil => simp
  | cons e t ih =>
    cases k with
    | zero =>
      simp only [List.take_zero]
      calc maxEmbNorm ([] : List (FKind × Option (EVec d))) = 0 := by simp [maxEmbNorm]
      _ ≤ maxEmbNorm (e :: t) := maxEmbNorm_nonneg _
    | succ k =>
      simp only [List.take_succ_cons]
      simp only [maxEmbNorm, List.map_cons, List.foldr_cons]
      exact max_le_max (le_refl _) (ih k)

theorem runFeedback_bound {d : ℕ} (evs : List (FKind × Option (EVec d))) :
    ∀ u0 : Option (EVec d), vnorm (runFeedback u0 evs) ≤ max (vnorm u0) (maxEmbNorm evs) := by
  induction evs with
  | nil =>
    intro u0
    exact le_max_left _ _
  | cons e t ih =>
    intro u0
    have h1 : runFeedback u0 (e :: t) = runFeedback (feedbackStep u0 e) t := rfl
    rw [h1]
    calc vnorm (runFeedback (feedbackStep u0 e) t) ≤
        max (vnorm (feedbackStep u0 e)) (maxEmbNorm t) := ih _
    _ ≤ max (max (vnorm u0) (vnorm e.2)) (maxEmbNorm t) :=
        max_le_max (feedbackStep_bound u0 e) (le_refl _)
    _ = max (vnorm u0) (maxEmbNorm (e :: t)) := by
        rw [max_assoc]
        rfl

/-- C3: for every initial state `u0` and every finite sequence of feedback
calls, the Euclidean norm of the user vector after each update (equally:
after any prefix of the sequence) is bounded by
`max(‖u0‖, max_i ‖v_i‖)`: positive feedback is a convex combination and
negative feedback rescales back to the prior norm. -/
theorem feedback_norm_bounded {d : ℕ} (u0 : Option (EVec d))
    (evs : List (FKind × Option (EVec d))) (k : ℕ) :
    vnorm (runFeedback u0 (evs.take k)) ≤ max (vnorm u0) (maxEmbNorm evs) :=
  (runFeedback_bound (evs.take k) u0).trans
    (max_le_max (le_refl _) (maxEmbNorm_take_le evs k))

/-- C10: `complete_onboarding` always sets the profile's `onboarded` flag,
for any pair of id lists including both empty; and when `liked` is empty
or no liked article has a stored embedding, the user vector is left
untouched — in particular a user with no vector can end up onboarded and
still have no vector. -/
theorem complete_onboarding_flag {d : ℕ} (emb : ℕ → Option (EVec d))
    (st : ProfileState d) (liked disliked : List ℕ) :
    (complete_onboarding emb st liked disliked).onboarded = true ∧
    (liked = [] → (complete_onboarding emb st liked disliked).userVec = st.userVec) ∧
    (liked.filterMap emb = [] →
      (complete_onboarding emb st liked disliked).userVec = st.userVec) ∧
    (st.userVec = none → liked.filterMap emb = [] →
      (complete_onboarding emb st liked disliked).onboarded = true ∧
      (complete_onboarding emb st liked disliked).userVec = none) := by
  refine ⟨rfl, ?_, ?_, ?_⟩
  · intro h
    simp only [complete_onboarding, if_pos h]
  · intro h
    simp only [complete_onboarding]
    by_cases hl : liked = []
    · rw [if_pos hl]
    · rw [if_neg hl, if_pos h]
  · intro hvec h
    refine ⟨rfl, ?_⟩
    simp only [complete_onboarding]
    by_cases hl : liked = []
    · rw [if_pos hl, hvec]
    · rw [if_neg hl, if_pos h, hvec]

/-! ## Lemmas for the grouping pass -/

theorem relatedPass_spec {d : ℕ} (τ : ℝ) (emb : ℕ → Option (EVec d)) (eI : EVec d) :
    ∀ (arts : List GArt) (used : List ℕ),
      (relatedPass τ emb eI arts used).2.Perm
        ((relatedPass τ emb eI arts used).1.map GArt.id ++ used) ∧
      (∀ x ∈ (relatedPass τ emb eI arts used).1, x.id ∉ used ∧
        ∃ eJ, emb x.id = some eJ ∧ ‖eJ‖ ≠ 0 ∧ τ ≤ cosSim eI eJ) ∧
      (relatedPass τ emb eI arts used).1.Sublist arts := by
  intro arts
  induction arts with
  | nil =>
    intro used
    exact ⟨by simp [relatedPass], by simp [relatedPass], by simp [relatedPass]⟩
  | cons a rest ih =>
    intro used
    by_cases hused : a.id ∈ used
    · rw [relatedPass, if_pos hused]
      obtain ⟨h1, h2, h3⟩ := ih used
      exact ⟨h1, h2, h3.trans (List.sublist_cons_self a rest)⟩
    · cases hemb : emb a.id with
      | none =>
        simp only [relatedPass, if_neg hused, hemb]
        obtain ⟨h1, h2, h3⟩ := ih used
        exact ⟨h1, h2, h3.trans (List.sublist_cons_self a rest)⟩
      | some eJ =>
        by_cases hz : ‖eJ‖ = 0
        · simp only [relatedPass, if_neg hused, hemb, if_pos hz]
          obtain ⟨h1, h2, h3⟩ := ih used
          exact ⟨h1, h2, h3.trans (List.sublist_cons_self a rest)⟩
        · by_cases hcos : τ ≤ cosSim eI eJ
          · simp only [relatedPass, if_neg hused, hemb, if_neg hz, if_pos hcos]
            obtain ⟨h1, h2, h3⟩ := ih (a.id :: used)
            refine ⟨?_, ?_, h3.cons₂ a⟩
            · simp only [List.map_cons, List.cons_append]
              exact h1.trans List.perm_middle
            · intro x hx
              rcases List.mem_cons.mp hx with rfl | hx'
              · exact ⟨hused, eJ, hemb, hz, hcos⟩
              · obtain ⟨hnot, hfacts⟩ := h2 x hx'
                exact ⟨fun hmem => hnot (List.mem_cons_of_mem _ hmem), hfacts⟩
          · simp only [relatedPass, if_neg hused, hemb, if_neg hz, if_neg hcos]
            obtain ⟨h1, h2, h3⟩ := ih used
            exact ⟨h1, h2, h3.trans (List.sublist_cons_self a rest)⟩

theorem filter_notmem_congr (arts : List GArt) {u1 u2 : List ℕ}
    (h : ∀ i : ℕ, i ∈ u1 ↔ i ∈ u2) :
    arts.filter (fun x => x.id ∉ u1) = arts.filter (fun x => x.id ∉ u2) := by
  apply List.filter_congr
  intro x _
  exact decide_eq_decide.mpr (not_congr (h x.id))

theorem unused_extract {arts : List GArt} (hnd : (arts.map GArt.id).Nodup) :
    ∀ {used : List ℕ} {a : GArt}, a ∈ arts → a.id ∉ used →
      ((arts.filter (fun x => x.id ∉ used)).map GArt.id).Perm
        (a.id :: (arts.filter (fun x => x.id ∉ (a.id :: used))).map GArt.id) := by
  induction arts with
  | nil =>
    intro used a ha
    exact absurd ha (List.not_mem_nil a)
  | cons b rest ih =>
    rw [List.map_cons, List.nodup_cons] at hnd
    obtain ⟨hbid, hndrest⟩ := hnd
    intro used a ha hau
    rcases List.mem_cons.mp ha with rfl | harest
    · -- the head is the extracted article (b was renamed to a)
      have hfb : ((a :: rest).filter (fun x => x.id ∉ used)) =
          a :: rest.filter (fun x => x.id ∉ used) := by
        rw [List.filter_cons, if_pos (by simpa using hau)]
      have hfb2 : ((a :: rest).filter (fun x => x.id ∉ (a.id :: used))) =
          rest.filter (fun x => x.id ∉ (a.id :: used)) := by
        rw [List.filter_cons, if_neg (by simp)]
      rw [hfb, hfb2, List.map_cons]
      apply List.Perm.cons
      have hfeq : rest.filter (fun x => x.id ∉ used) =
          rest.filter (fun x => x.id ∉ (a.id :: used)) := by
        apply List.filter_congr
        intro x hx
        have hxid : x.id ≠ a.id := by
          intro hxb
          exact hbid (hxb ▸ List.mem_map_of_mem GArt.id hx)
        apply decide_eq_decide.mpr
        constructor
        · intro hnot hmem
          rcases List.mem_cons.mp hmem with heq | hmem'
          · exact hxid heq
          · exact hnot hmem'
        · intro hnot hmem
          exact hnot (List.mem_cons_of_mem _ hmem)
      rw [hfeq]
    · -- the extracted article sits in the tail
      have haid : a.id ≠ b.id := by
        intro h
        exact hbid (h ▸ List.mem_map_of_mem GArt.id harest)
      by_cases hbu : b.id ∈ used
      · have hfb : ((b :: rest).filter (fun x => x.id ∉ used)) =
            rest.filter (fun x => x.id ∉ used) := by
          rw [List.filter_cons, if_neg (by simpa using hbu)]
        have hfb2 : ((b :: rest).filter (fun x => x.id ∉ (a.id :: used))) =
            rest.filter (fun x => x.id ∉ (a.id :: used)) := by
          rw [List.filter_cons, if_neg (by simp [hbu])]
        rw [hfb, hfb2]
        exact ih hndrest harest hau
      · have hfb : ((b :: rest).filter (fun x => x.id ∉ used)) =
            b :: rest.filter (fun x => x.id ∉ used) := by
          rw [List.filter_cons, if_pos (by simpa using hbu)]
        have hfb2 : ((b :: rest).filter (fun x => x.id ∉ (a.id :: used))) =
            b :: rest.filter (fun x => x.id ∉ (a.id :: used)) := by
          rw [List.filter_cons, if_pos]
          simp only [decide_eq_true_eq]
          intro hmem
          rcases List.mem_cons.mp hmem with heq | hmem'
          · exact haid heq.symm
          · exact hbu hmem'
        rw [hfb, hfb2, List.map_cons, List.map_cons]
        exact ((ih hndrest harest hau).cons b.id).trans
          (List.Perm.swap a.id b.id _)

theorem unused_extract_many {arts : List GArt} (hnd : (arts.map GArt.id).Nodup) :
    ∀ (S : List GArt) (used : List ℕ),
      (∀ x ∈ S, x ∈ arts) → (∀ x ∈ S, x.id ∉ used) → (S.map GArt.id).Nodup →
      ((arts.filter (fun x => x.id ∉ used)).map GArt.id).Perm
        (S.map GArt.id ++
          (arts.filter (fun x => x.id ∉ (S.map GArt.id ++ used))).map GArt.id) := by
  intro S
  induction S with
  | nil =>
    intro used _ _ _
    simp
  | cons x S' ih =>
    intro used hin hnotu hSnd
    rw [List.map_cons, List.nodup_cons] at hSnd
    obtain ⟨hxS', hS'nd⟩ := hSnd
    have hx_arts : x ∈ arts := hin x (by simp)
    have hx_used : x.id ∉ used := hnotu x (by simp)
    have h1 := unused_extract hnd hx_arts hx_used
    have h2 := ih (x.id :: used) (fun y hy => hin y (by simp [hy]))
      (fun y hy => by
        have h3 := hnotu y (by simp [hy])
        have h4 : y.id ≠ x.id := by
          intro heq
          exact hxS' (heq ▸ List.mem_map_of_mem GArt.id hy)
        intro hmem
        rcases List.mem_cons.mp hmem with heq | hmem'
        · exact h4 heq
        · exact h3 hmem')
      hS'nd
    have hfeq : arts.filter (fun y => y.id ∉ (S'.map GArt.id ++ (x.id :: used))) =
        arts.filter (fun y => y.id ∉ ((x :: S').map GArt.id ++ used)) := by
      apply filter_notmem_congr
      intro i
      simp only [List.map_cons, List.mem_append, List.mem_cons]
      tauto
    rw [hfeq] at h2
    exact h1.trans (h2.cons x.id)

theorem groupGo_perm {d : ℕ} (τ : ℝ) (emb : ℕ → Option (EVec d)) (allArts : List GArt)
    (hnd : (allArts.map GArt.id).Nodup) :
    ∀ (rest : List GArt) (used : List ℕ),
      rest.Sublist allArts →
      (∀ x ∈ allArts, x.id ∉ used → x ∈ rest) →
      (((groupGo τ emb allArts rest used).flatMap fun g => g.art :: g.related).map
        GArt.id).Perm ((allArts.filter (fun x => x.id ∉ used)).map GArt.id) := by
  intro rest
  induction rest with
  | nil =>
    intro used _ hcover
    have hf : allArts.filter (fun x => x.id ∉ used) = [] := by
      rw [List.filter_eq_nil_iff]
      intro x hx
      simp only [decide_eq_true_eq]
      intro hxnot
      exact absurd (hcover x hx hxnot) (List.not_mem_nil x)
    rw [hf]
    simp [groupGo]
  | cons a rest ih =>
    intro used hsub hcover
    have hrest_sub : rest.Sublist allArts := List.sublist_of_cons_sublist hsub
    have ha_all : a ∈ allArts := hsub.subset (List.mem_cons_self a rest)
    by_cases hused : a.id ∈ used
    · rw [groupGo, if_pos hused]
      apply ih used hrest_sub
      intro x hx hxu
      rcases List.mem_cons.mp (hcover x hx hxu) with rfl | h
      · exact absurd hused hxu
      · exact h
    · have hcover' : ∀ x ∈ allArts, x.id ∉ (a.id :: used) → x ∈ rest := by
        intro x hx hxu
        have hxu' : x.id ∉ used := fun h => hxu (List.mem_cons_of_mem _ h)
        have hxa : x.id ≠ a.id := fun h => hxu (h ▸ List.mem_cons_self _ _)
        rcases List.mem_cons.mp (hcover x hx hxu') with rfl | h
        · exact absurd rfl hxa
        · exact h
      have hextract := unused_extract hnd ha_all hused
      cases hemb : emb a.id with
      | none =>
        simp only [groupGo, if_neg hused, hemb]
        have hih := ih (a.id :: used) hrest_sub hcover'
        simp only [List.flatMap_cons, List.map_append, List.map_cons, List.map_nil,
          List.cons_append, List.nil_append]
        exact (hih.cons a.id).trans hextract.symm
      | some eI =>
        by_cases hz : ‖eI‖ = 0
        · simp only [groupGo, if_neg hused, hemb, if_pos hz]
          have hih := ih (a.id :: used) hrest_sub hcover'
          simp only [List.flatMap_cons, List.map_append, List.map_cons, List.map_nil,
            List.cons_append, List.nil_append]
          exact (hih.cons a.id).trans hextract.symm
        · simp only [groupGo, if_neg hused, hemb, if_neg hz]
          obtain ⟨hperm, hels, hsubl⟩ := relatedPass_spec τ emb eI allArts (a.id :: used)
          have hID_nodup : ((relatedPass τ emb eI allArts (a.id :: used)).1.map GArt.id).Nodup :=
            hnd.sublist (hsubl.map GArt.id)
          have p2mem : ∀ i : ℕ, i ∈ (relatedPass τ emb eI allArts (a.id :: used)).2 ↔
              i ∈ (relatedPass τ emb eI allArts (a.id :: used)).1.map GArt.id ++
                (a.id :: used) := fun i => hperm.mem_iff
          have hcover2 : ∀ x ∈ allArts,
              x.id ∉ (relatedPass τ emb eI allArts (a.id :: used)).2 → x ∈ rest := by
            intro x hx hxu
            rw [p2mem x.id] at hxu
            simp only [List.mem_append, List.mem_cons] at hxu
            push_neg at hxu
            exact hcover' x hx (by
              simp only [List.mem_cons]
              push_neg
              exact ⟨hxu.2.1, hxu.2.2⟩)
          have hih := ih (relatedPass τ emb eI allArts (a.id :: used)).2 hrest_sub hcover2
          have hfcongr : allArts.filter
              (fun x => x.id ∉ (relatedPass τ emb eI allArts (a.id :: used)).2) =
              allArts.filter (fun x =>
                x.id ∉ ((relatedPass τ emb eI allArts (a.id :: used)).1.map GArt.id ++
                  (a.id :: used))) := filter_notmem_congr allArts p2mem
          have hS_in : ∀ x ∈ a :: (relatedPass τ emb eI allArts (a.id :: used)).1,
              x ∈ allArts := by
            intro x hx
            rcases List.mem_cons.mp hx with rfl | hx'
            · exact ha_all
            · exact hsubl.subset hx'
          have hS_notu : ∀ x ∈ a :: (relatedPass τ emb eI allArts (a.id :: used)).1,
              x.id ∉ used := by
            intro x hx
            rcases List.mem_cons.mp hx with rfl | hx'
            · exact hused
            · exact fun h => (hels x hx').1 (List.mem_cons_of_mem _ h)
          have hS_nd : ((a :: (relatedPass τ emb eI allArts (a.id :: used)).1).map
              GArt.id).Nodup := by
            rw [List.map_cons, List.nodup_cons]
            refine ⟨?_, hID_nodup⟩
            intro hmem
            obtain ⟨y, hy, hyid⟩ := List.mem_map.mp hmem
            exact (hels y hy).1 (hyid ▸ List.mem_cons_self _ _)
          have hU2 := unused_extract_many hnd
            (a :: (relatedPass τ emb eI allArts (a.id :: used)).1) used hS_in hS_notu hS_nd
          have hfcongr2 : allArts.filter (fun x =>
              x.id ∉ ((a :: (relatedPass τ emb eI allArts (a.id :: used)).1).map GArt.id ++
                used)) =
              allArts.filter (fun x =>
                x.id ∉ ((relatedPass τ emb eI allArts (a.id :: used)).1.map GArt.id ++
                  (a.id :: used))) := by
            apply filter_notmem_congr
            intro i
            simp only [List.map_cons, List.mem_append, List.mem_cons]
            tauto
          rw [hfcongr2] at hU2
          rw [hfcongr] at hih
          simp only [List.flatMap_cons, List.map_append, List.map_cons, List.cons_append]
          exact ((hih.append_left
            ((relatedPass τ emb eI allArts (a.id :: used)).1.map GArt.id)).cons a.id).trans
              hU2.symm

theorem groupGo_reps_sublist {d : ℕ} (τ : ℝ) (emb : ℕ → Option (EVec d))
    (allArts : List GArt) :
    ∀ (rest : List GArt) (used : List ℕ),
      ((groupGo τ emb allArts rest used).map SimGroup.art).Sublist rest := by
  intro rest
  induction rest with
  | nil =>
    intro used
    simp [groupGo]
  | cons a rest ih =>
    intro used
    by_cases hused : a.id ∈ used
    · rw [groupGo, if_pos hused]
      exact (ih used).trans (List.sublist_cons_self a rest)
    · cases hemb : emb a.id with
      | none =>
        simp only [groupGo, if_neg hused, hemb, List.map_cons]
        exact (ih (a.id :: used)).cons₂ a
      | some eI =>
        by_cases hz : ‖eI‖ = 0
        · simp only [groupGo, if_neg hused, hemb, if_pos hz, List.map_cons]
          exact (ih (a.id :: used)).cons₂ a
        · simp only [groupGo, if_neg hused, hemb, if_neg hz, List.map_cons]
          exact (ih _).cons₂ a

theorem groupGo_members {d : ℕ} (τ : ℝ) (emb : ℕ → Option (EVec d))
    (allArts : List GArt) :
    ∀ (rest : List GArt) (used : List ℕ),
      ∀ g ∈ groupGo τ emb allArts rest used,
        (emb g.art.id = none → g.related = []) ∧
        (∀ x ∈ g.related, ∃ eI eJ, emb g.art.id = some eI ∧ ‖eI‖ ≠ 0 ∧
          emb x.id = some eJ ∧ ‖eJ‖ ≠ 0 ∧ τ ≤ cosSim eI eJ) := by
  intro rest
  induction rest with
  | nil =>
    intro used g hg
    simp [groupGo] at hg
  | cons a rest ih =>
    intro used g hg
    by_cases hused : a.id ∈ used
    · rw [groupGo, if_pos hused] at hg
      exact ih used g hg
    · cases hemb : emb a.id with
      | none =>
        simp only [groupGo, if_neg hused, hemb] at hg
        rcases List.mem_cons.mp hg with rfl | hg'
        · exact ⟨fun _ => rfl, fun x hx => absurd hx (List.not_mem_nil x)⟩
        · exact ih (a.id :: used) g hg'
      | some eI =>
        by_cases hz : ‖eI‖ = 0
        · simp only [groupGo, if_neg hused, hemb, if_pos hz] at hg
          rcases List.mem_cons.mp hg with rfl | hg'
          · exact ⟨fun _ => rfl, fun x hx => absurd hx (List.not_mem_nil x)⟩
          · exact ih (a.id :: used) g hg'
        · simp only [groupGo, if_neg hused, hemb, if_neg hz] at hg
          rcases List.mem_cons.mp hg with rfl | hg'
          · refine ⟨fun hnone => absurd (hemb ▸ hnone) (by simp), ?_⟩
            intro x hx
            obtain ⟨-, eJ, hJ, hJz, hJcos⟩ :=
              (relatedPass_spec τ emb eI allArts (a.id :: used)).2.1 x hx
            exact ⟨eI, eJ, hemb, hz, hJ, hJz, hJcos⟩
          · exact ih _ g hg'

/-- C4: for an input with pairwise-distinct ids, `group_similar_articles`
returns a partition of the input by id (each input article lands in
exactly one group, counted as the id-multiset being a permutation of the
input's), the group representatives appear as an in-order sublist of the
input, every absorbed article has cosine similarity at least `τ` with its
own representative's embedding, and every article without a stored
embedding forms a singleton group with an empty `related` list. -/
theorem grouping_partition {d : ℕ} (emb : ℕ → Option (EVec d)) (articles : List GArt)
    (τ : ℝ) (hnd : (articles.map GArt.id).Nodup) :
    (((group_similar_articles emb articles τ).flatMap fun g => g.art :: g.related).map
      GArt.id).Perm (articles.map GArt.id) ∧
    ((group_similar_articles emb articles τ).map SimGroup.art).Sublist articles ∧
    (∀ g ∈ group_similar_articles emb articles τ, ∀ x ∈ g.related,
      ∃ eI eJ, emb g.art.id = some eI ∧ emb x.id = some eJ ∧ τ ≤ cosSim eI eJ) ∧
    (∀ g ∈ group_similar_articles emb articles τ,
      emb g.art.id = none → g.related = []) := by
  by_cases hempty : articles.isEmpty
  · have h0 : articles = [] := List.isEmpty_iff.mp hempty
    rw [group_similar_articles, if_pos hempty, h0]
    exact ⟨by simp, by simp, by simp, by simp⟩
  · rw [group_similar_articles, if_neg hempty]
    refine ⟨?_, ?_, ?_, ?_⟩
    · have h := groupGo_perm τ emb articles hnd articles [] (List.Sublist.refl _)
        (fun x hx _ => hx)
      have hfilter : articles.filter (fun x => x.id ∉ ([] : List ℕ)) = articles := by
        apply List.filter_eq_self.mpr
        intro x _
        simp
      rw [hfilter] at h
      exact h
    · exact groupGo_reps_sublist τ emb articles articles []
    · intro g hg x hx
      obtain ⟨-, h2⟩ := groupGo_members τ emb articles articles [] g hg
      obtain ⟨eI, eJ, hI, -, hJ, -, hcos⟩ := h2 x hx
      exact ⟨eI, eJ, hI, hJ, hcos⟩
    · intro g hg
      exact (groupGo_members τ emb articles articles [] g hg).1

/-- Witness for `grouping_partition`: two embedding-less articles become
two singleton groups. -/
theorem grouping_partition_witness :
    (((group_similar_articles (fun _ => (none : Option (EVec 1))) [⟨1⟩, ⟨2⟩] 0.85).flatMap
      fun g => g.art :: g.related).map GArt.id).Perm (([⟨1⟩, ⟨2⟩] : List GArt).map GArt.id) ∧
    ((group_similar_articles (fun _ => (none : Option (EVec 1))) [⟨1⟩, ⟨2⟩] 0.85).map
      SimGroup.art).Sublist [⟨1⟩, ⟨2⟩] ∧
    (∀ g ∈ group_similar_articles (fun _ => (none : Option (EVec 1))) [⟨1⟩, ⟨2⟩] 0.85,
      ∀ x ∈ g.related, ∃ eI eJ, (fun _ => (none : Option (EVec 1))) g.art.id = some eI ∧
        (fun _ => (none : Option (EVec 1))) x.id = some eJ ∧ (0.85 : ℝ) ≤ cosSim eI eJ) ∧
    (∀ g ∈ group_similar_articles (fun _ => (none : Option (EVec 1))) [⟨1⟩, ⟨2⟩] 0.85,
      (fun _ => (none : Option (EVec 1))) g.art.id = none → g.related = []) :=
  grouping_partition (fun _ => none) [⟨1⟩, ⟨2⟩] 0.85 (by decide)

/-! ## Concrete cosine computations for the grouping scenario -/

theorem mk3_apply (a b c : ℝ) (i : Fin 3) :
    mk3 a b c i = if i = 0 then a else if i = 1 then b else c := by
  rw [mk3, WithLp.equiv_symm_pi_apply]

theorem mk3_inner (a b c x y z : ℝ) :
    (inner (mk3 a b c) (mk3 x y z) : ℝ) = a * x + b * y + c * z := by
  rw [PiLp.inner_apply]
  simp only [RCLike.inner_apply, starRingEnd_apply, star_trivial, Fin.sum_univ_three,
    mk3_apply, eq_self_iff_true, if_true,
    eq_false (by decide : ¬ ((1 : Fin 3) = 0)),
    eq_false (by decide : ¬ ((2 : Fin 3) = 0)),
    eq_false (by decide : ¬ ((2 : Fin 3) = 1)),
    if_false]

theorem mk3_norm (a b c : ℝ) : ‖mk3 a b c‖ = Real.sqrt (a ^ 2 + b ^ 2 + c ^ 2) := by
  rw [EuclideanSpace.norm_eq]
  congr 1
  simp only [Fin.sum_univ_three, mk3_apply, Real.norm_eq_abs, sq_abs,
    eq_self_iff_true, if_true,
    eq_false (by decide : ¬ ((1 : Fin 3) = 0)),
    eq_false (by decide : ¬ ((2 : Fin 3) = 0)),
    eq_false (by decide : ¬ ((2 : Fin 3) = 1)),
    if_false]

theorem eW1_norm : ‖eW1‖ = 1 := by
  rw [eW1, mk3_norm, show ((3/5 : ℝ) ^ 2 + (4/5) ^ 2 + 0 ^ 2) = 1 by norm_num,
    Real.sqrt_one]

theorem eW2_norm : ‖eW2‖ = 1 := by
  rw [eW2, mk3_norm, show ((4/5 : ℝ) ^ 2 + (3/5) ^ 2 + 0 ^ 2) = 1 by norm_num,
    Real.sqrt_one]

theorem eW3_norm : ‖eW3‖ = 1 := by
  rw [eW3, mk3_norm, show ((24/25 : ℝ) ^ 2 + (7/25) ^ 2 + 0 ^ 2) = 1 by norm_num,
    Real.sqrt_one]

theorem eW4_norm : ‖eW4‖ = 1 := by
  rw [eW4, mk3_norm, show ((0 : ℝ) ^ 2 + 0 ^ 2 + 1 ^ 2) = 1 by norm_num, Real.sqrt_one]

theorem eW5_norm : ‖eW5‖ = 1 := by
  rw [eW5, mk3_norm, show ((0 : ℝ) ^ 2 + 0 ^ 2 + 1 ^ 2) = 1 by norm_num, Real.sqrt_one]

theorem nW1 : ¬ ‖eW1‖ = 0 := by rw [eW1_norm]; norm_num

theorem nW2 : ¬ ‖eW2‖ = 0 := by rw [eW2_norm]; norm_num

theorem nW3 : ¬ ‖eW3‖ = 0 := by rw [eW3_norm]; norm_num

theorem nW4 : ¬ ‖eW4‖ = 0 := by rw [eW4_norm]; norm_num

theorem nW5 : ¬ ‖eW5‖ = 0 := by rw [eW5_norm]; norm_num

theorem cW12 : (0.85 : ℝ) ≤ cosSim eW1 eW2 := by
  rw [cosSim, eW1_norm, eW2_norm, eW1, eW2, mk3_inner]
  norm_num

theorem cW23 : (0.85 : ℝ) ≤ cosSim eW2 eW3 := by
  rw [cosSim, eW2_norm, eW3_norm, eW2, eW3, mk3_inner]
  norm_num

theorem cW13 : ¬ (0.85 : ℝ) ≤ cosSim eW1 eW3 := by
  rw [cosSim, eW1_norm, eW3_norm, eW1, eW3, mk3_inner]
  norm_num

theorem cW14 : ¬ (0.85 : ℝ) ≤ cosSim eW1 eW4 := by
  rw [cosSim, eW1_norm, eW4_norm, eW1, eW4, mk3_inner]
  norm_num

theorem cW15 : ¬ (0.85 : ℝ) ≤ cosSim eW1 eW5 := by
  rw [cosSim, eW1_norm, eW5_norm, eW1, eW5, mk3_inner]
  norm_num

theorem cW34 : ¬ (0.85 : ℝ) ≤ cosSim eW3 eW4 := by
  rw [cosSim, eW3_norm, eW4_norm, eW3, eW4, mk3_inner]
  norm_num

theorem cW35 : ¬ (0.85 : ℝ) ≤ cosSim eW3 eW5 := by
  rw [cosSim, eW3_norm, eW5_norm, eW3, eW5, mk3_inner]
  norm_num

theorem cW45 : (0.85 : ℝ) ≤ cosSim eW4 eW5 := by
  rw [cosSim, eW4_norm, eW5_norm, eW4, eW5, mk3_inner]
  norm_num

/-- Symbolic evaluation of the greedy pass on five articles with the
scenario's cosine pattern against τ = 0.85. -/
theorem grouping_greedy_eval {d : ℕ} (emb : ℕ → Option (EVec d))
    (e1 e2 e3 e4 e5 : EVec d)
    (h1 : emb 1 = some e1) (h2 : emb 2 = some e2) (h3 : emb 3 = some e3)
    (h4 : emb 4 = some e4) (h5 : emb 5 = some e5)
    (n1 : ¬ ‖e1‖ = 0) (n2 : ¬ ‖e2‖ = 0) (n3 : ¬ ‖e3‖ = 0)
    (n4 : ¬ ‖e4‖ = 0) (n5 : ¬ ‖e5‖ = 0)
    (c12 : (0.85 : ℝ) ≤ cosSim e1 e2) (c23 : (0.85 : ℝ) ≤ cosSim e2 e3)
    (c13 : ¬ (0.85 : ℝ) ≤ cosSim e1 e3) (c14 : ¬ (0.85 : ℝ) ≤ cosSim e1 e4)
    (c15 : ¬ (0.85 : ℝ) ≤ cosSim e1 e5) (c34 : ¬ (0.85 : ℝ) ≤ cosSim e3 e4)
    (c35 : ¬ (0.85 : ℝ) ≤ cosSim e3 e5) (c45 : (0.85 : ℝ) ≤ cosSim e4 e5) :
    group_similar_articles emb [⟨1⟩, ⟨2⟩, ⟨3⟩, ⟨4⟩, ⟨5⟩] 0.85 =
      [⟨⟨1⟩, [⟨2⟩]⟩, ⟨⟨3⟩, []⟩, ⟨⟨4⟩, [⟨5⟩]⟩] := by
  have hpass1 : relatedPass 0.85 emb e1 [⟨1⟩, ⟨2⟩, ⟨3⟩, ⟨4⟩, ⟨5⟩] [1] =
      ([⟨2⟩], [2, 1]) := by
    rw [relatedPass, if_pos (by decide)]
    rw [relatedPass, if_neg (by decide)]
    simp only [h2]
    rw [if_neg n2, if_pos c12]
    rw [relatedPass, if_neg (by decide)]
    simp only [h3]
    rw [if_neg n3, if_neg c13]
    rw [relatedPass, if_neg (by decide)]
    simp only [h4]
    rw [if_neg n4, if_neg c14]
    rw [relatedPass, if_neg (by decide)]
    simp only [h5]
    rw [if_neg n5, if_neg c15]
    rw [relatedPass]
  have hpass3 : relatedPass 0.85 emb e3 [⟨1⟩, ⟨2⟩, ⟨3⟩, ⟨4⟩, ⟨5⟩] [3, 2, 1] =
      ([], [3, 2, 1]) := by
    rw [relatedPass, if_pos (by decide)]
    rw [relatedPass, if_pos (by decide)]
    rw [relatedPass, if_pos (by decide)]
    rw [relatedPass, if_neg (by decide)]
    simp only [h4]
    rw [if_neg n4, if_neg c34]
    rw [relatedPass, if_neg (by decide)]
    simp only [h5]
    rw [if_neg n5, if_neg c35]
    rw [relatedPass]
  have hpass4 : relatedPass 0.85 emb e4 [⟨1⟩, ⟨2⟩, ⟨3⟩, ⟨4⟩, ⟨5⟩] [4, 3, 2, 1] =
      ([⟨5⟩], [5, 4, 3, 2, 1]) := by
    rw [relatedPass, if_pos (by decide)]
    rw [relatedPass, if_pos (by decide)]
    rw [relatedPass, if_pos (by decide)]
    rw [relatedPass, if_pos (by decide)]
    rw [relatedPass, if_neg (by decide)]
    simp only [h5]
    rw [if_neg n5, if_pos c45]
    rw [relatedPass]
  rw [group_similar_articles, if_neg (by decide)]
  rw [groupGo, if_neg (by decide)]
  simp only [h1]
  rw [if_neg n1]
  simp only [hpass1]
  rw [groupGo, if_pos (by decide)]
  rw [groupGo, if_neg (by decide)]
  simp only [h3]
  rw [if_neg n3]
  simp only [hpass3]
  rw [groupGo, if_neg (by decide)]
  simp only [h4]
  rw [if_neg n4]
  simp only [hpass4]
  rw [groupGo, if_pos (by decide)]
  rw [groupGo]

/-- C5 counterexample: a concrete five-article store realizing the
scenario's threshold pattern (cosines (1,2) = 0.96 ≥ τ, (2,3) = 0.936 ≥ τ,
(1,3) = 0.8 < τ, (4,5) = 1 ≥ τ, cross pairs 0; the spec's literal cosine
triple 0.90/0.50/0.92 is unrealizable, its Gram matrix is not positive
semidefinite, but the greedy pass only consumes comparisons against τ).
The code produces `[{1,[2]}, {3,[]}, {4,[5]}]` — three groups, with
article 3 NOT absorbed into article 1's group — and not the claimed
`[{1,[2,3]}, {4,[5]}]`. -/
theorem grouping_scenario_cex :
    group_similar_articles embW [⟨1⟩, ⟨2⟩, ⟨3⟩, ⟨4⟩, ⟨5⟩] 0.85 =
      [⟨⟨1⟩, [⟨2⟩]⟩, ⟨⟨3⟩, []⟩, ⟨⟨4⟩, [⟨5⟩]⟩] ∧
    group_similar_articles embW [⟨1⟩, ⟨2⟩, ⟨3⟩, ⟨4⟩, ⟨5⟩] 0.85 ≠
      [⟨⟨1⟩, [⟨2⟩, ⟨3⟩]⟩, ⟨⟨4⟩, [⟨5⟩]⟩] := by
  have h := grouping_greedy_eval embW eW1 eW2 eW3 eW4 eW5 rfl rfl rfl rfl rfl
    nW1 nW2 nW3 nW4 nW5 cW12 cW23 cW13 cW14 cW15 cW34 cW35 cW45
  refine ⟨h, ?_⟩
  rw [h]
  decide

/-- C5 amended: for five articles whose cosine pattern against τ = 0.85
is the scenario's — pairs (1,2), (2,3), (4,5) at or above τ, pair (1,3)
and all remaining pairs below τ — `group_similar_articles` produces
exactly the groups `[{1,2}, {3}, {4,5}]`: article 3 forms its own
singleton group and is NOT absorbed into article 1's group, because
absorption compares an article only against the current representative
(cos(1,3) < τ), even though cos(2,3) ≥ τ. -/
theorem grouping_scenario_amended {d : ℕ} (emb : ℕ → Option (EVec d))
    (e1 e2 e3 e4 e5 : EVec d)
    (h1 : emb 1 = some e1) (h2 : emb 2 = some e2) (h3 : emb 3 = some e3)
    (h4 : emb 4 = some e4) (h5 : emb 5 = some e5)
    (n1 : ¬ ‖e1‖ = 0) (n2 : ¬ ‖e2‖ = 0) (n3 : ¬ ‖e3‖ = 0)
    (n4 : ¬ ‖e4‖ = 0) (n5 : ¬ ‖e5‖ = 0)
    (c12 : (0.85 : ℝ) ≤ cosSim e1 e2) (c23 : (0.85 : ℝ) ≤ cosSim e2 e3)
    (c13 : ¬ (0.85 : ℝ) ≤ cosSim e1 e3) (c14 : ¬ (0.85 : ℝ) ≤ cosSim e1 e4)
    (c15 : ¬ (0.85 : ℝ) ≤ cosSim e1 e5) (c34 : ¬ (0.85 : ℝ) ≤ cosSim e3 e4)
    (c35 : ¬ (0.85 : ℝ) ≤ cosSim e3 e5) (c45 : (0.85 : ℝ) ≤ cosSim e4 e5) :
    group_similar_articles emb [⟨1⟩, ⟨2⟩, ⟨3⟩, ⟨4⟩, ⟨5⟩] 0.85 =
      [⟨⟨1⟩, [⟨2⟩]⟩, ⟨⟨3⟩, []⟩, ⟨⟨4⟩, [⟨5⟩]⟩] :=
  grouping_greedy_eval emb e1 e2 e3 e4 e5 h1 h2 h3 h4 h5 n1 n2 n3 n4 n5
    c12 c23 c13 c14 c15 c34 c35 c45

/-- Witness for `grouping_scenario_amended` at the concrete unit vectors
`eW1`-`eW5`. -/
theorem grouping_scenario_amended_witness :
    group_similar_articles embW [⟨1⟩, ⟨2⟩, ⟨3⟩, ⟨4⟩, ⟨5⟩] 0.85 =
      [⟨⟨1⟩, [⟨2⟩]⟩, ⟨⟨3⟩, []⟩, ⟨⟨4⟩, [⟨5⟩]⟩] :=
  grouping_scenario_amended embW eW1 eW2 eW3 eW4 eW5 rfl rfl rfl rfl rfl
    nW1 nW2 nW3 nW4 nW5 cW12 cW23 cW13 cW14 cW15 cW34 cW35 cW45
